import Mathlib

/-!
# A shallow embedding of structdef.js

This file embeds the schema-interpretation engine of `structdef.js`
(`readStruct` / `readType` / `writeStruct` / `writeType`,
`arrayToNative` / `flipArrayEndianness`) in Lean and proves properties of it.

Modelling conventions, chosen to mirror the JavaScript source byte for byte:

* A buffer (`DataView` over an `ArrayBuffer`) is a `List Nat` of byte values;
  the cursor `idx[0]` is an explicit `Nat` threaded through every call, and the
  buffer itself is threaded as well because `flipArrayEndianness` can mutate it
  in place through a zero-copy typed-array view.
* Schema nodes are represented after tag parsing: the string tag grammar
  `base[le][:paddedTo][=ref[!]]` (split on `=`, then `:`, then the `le` suffix,
  exactly as in lines 23-40 of the source) is reflected by the fields of
  `Node.scalar`, `Node.fstring` (`'string'` tags), and `Node.cstr`
  (`'cstring'` tags).  An array literal `[elementType, lengthSpec]` becomes
  `Node.arr`; an alternatives list (an array whose second element is an object,
  the source's branch test `typeof length == 'object'`) becomes `Node.branch`;
  an object literal becomes `Node.strct` with fields in insertion order.
* `float32`/`float64` values are modelled by the IEEE bit pattern of the bytes
  they were read from (`Value.fnum w bits`, `bits` in logical big-endian
  order).  Every NaN pattern denotes the single JavaScript value `NaN`
  (`truthy` treats them all as falsy); on write-back `setFloat32`/`setFloat64`
  stores an implementation-chosen NaN encoding — the `float32` path quietens
  through the float↔double conversions — modelled here as the canonical quiet
  NaN (`0x7FC00000` / `0x7FF8000000000000`, the choice of the major engines).
  Float write-back is therefore not byte-exact on NaN patterns, and the float
  tags are excluded from the writable fragment.  A reference constraint on a
  float tag (`parseFloat(ref) == v`) is modelled only up to the bit-pattern
  representation; no claim exercises it.
* JavaScript distinguishes `null`/`undefined` (both `== null`, both falsy)
  from falsy numbers and strings; `Res` and `Value` keep those distinctions.
  `Res.err` stands for a thrown exception (`RangeError` from an out-of-range
  `DataView` access or typed-array construction, or the `TypeError` reached
  when `writeType` falls through to `writeStruct` on a tag string it does not
  handle).  `Res.spin` is returned when the step fuel runs out; it also marks
  genuine non-termination (e.g. a `'*'` array whose element consumes 0 bytes).
* Length expressions are evaluated over exact fractions (`Frac`): JavaScript
  numbers are exact on the integer ranges the engine meets, and only `/` can
  leave the integers, in which case both the double and the fraction truncate
  to the same element count for the magnitudes a schema can produce.
  Division follows JavaScript: `0/0` is NaN (which `ToIndex` converts to 0 in
  the typed-array path and `new Array` rejects), `x/0` for `x ≠ 0` is
  `±Infinity`, marked `LenVal.inf`, which every length consumer turns into a
  `RangeError`; an Infinity running sum stays Infinity under `+ - /` and
  becomes NaN when multiplied by 0.  A length field holding a non-numeric
  decoded value is modelled as NaN; no claim exercises that corner.
-/

/-- JavaScript values produced and consumed by the engine. -/
inductive Value where
  | num (n : Int)
  | fnum (w : Nat) (bits : Nat)
  | str (cs : List Nat)
  | varr (vs : List Value)
  | obj (fs : List (String × Value))
  | nullv
  | undef
deriving Repr

/-- Outcome of a read: a value, the `null` no-match signal, a thrown
exception, or fuel exhaustion (divergence). -/
inductive Res where
  | ok (v : Value)
  | noMatch
  | err
  | spin
deriving Repr

/-- The eight scalar base types of the tag grammar. -/
inductive BaseType where
  | u8 | i8 | u16 | i16 | u32 | i32 | f32 | f64
deriving Repr, DecidableEq

/-- Operators of the arithmetic length grammar (`+ - * /`). -/
inductive ExOp where
  | add | sub | mul | div
deriving Repr, DecidableEq

/-- One term of an arithmetic length expression: a digit literal or a
previously decoded sibling field name. -/
inductive ExTerm where
  | lit (n : Nat)
  | fld (name : String)
deriving Repr, DecidableEq

/-- The length specifier of an array node: a literal integer (negative means
`bufferEnd - currentOffset + n`), the `'*'` form, an arithmetic expression
(the source splits the string before each operator; the first segment carries
an implicit `+`), or a named sibling field. -/
inductive LenSpec where
  | lit (n : Int)
  | star
  | expr (segs : List (ExOp × ExTerm))
  | fld (name : String)
deriving Repr

/-- A schema node, as produced by the tag parsing at the head of `readType`. -/
inductive Node where
  | scalar (b : BaseType) (le : Bool) (paddedTo : Nat) (ref : Option (Int × Bool))
  | fstring (paddedTo : Nat) (ref : Option (List Nat × Bool))
  | cstr (paddedTo : Nat) (ref : Option (List Nat × Bool))
  | arr (elem : Node) (len : LenSpec)
  | branch (alts : List Node)
  | strct (fields : List (String × Node))
deriving Repr

/-- Natural byte width of a scalar base type. -/
def byteWidth : BaseType → Nat
  | .u8 => 1 | .i8 => 1
  | .u16 => 2 | .i16 => 2
  | .u32 => 4 | .i32 => 4
  | .f32 => 4 | .f64 => 8

/-- The float base types. -/
def isFloat : BaseType → Bool
  | .f32 => true | .f64 => true | _ => false

/-- The signed integer base types. -/
def isSigned : BaseType → Bool
  | .i8 => true | .i16 => true | .i32 => true | _ => false

/-- Big-endian value of a byte list (most significant byte first). -/
def beVal : List Nat → Nat
  | [] => 0
  | b :: bs => b * 2 ^ (8 * bs.length) + beVal bs

/-- The `w` big-endian bytes of `n` (most significant first). -/
def beBytes (w : Nat) (n : Nat) : List Nat :=
  match w with
  | 0 => []
  | w + 1 => (n / 2 ^ (8 * w)) % 256 :: beBytes w n

/-- Two's-complement reading of a `w`-byte unsigned value. -/
def signedVal (w : Nat) (u : Nat) : Int :=
  if u < 2 ^ (8 * w - 1) then (u : Int) else (u : Int) - 2 ^ (8 * w)

/-- Read `n` bytes at `pos`; `none` is the `RangeError` of an out-of-range
`DataView` access. -/
def getBytes (buf : List Nat) (pos n : Nat) : Option (List Nat) :=
  if pos + n ≤ buf.length then some ((buf.drop pos).take n) else none

/-- Overwrite `bs.length` bytes of `buf` at `pos` (callers establish bounds). -/
def setBytes (buf : List Nat) (pos : Nat) (bs : List Nat) : List Nat :=
  buf.take pos ++ bs ++ buf.drop (pos + bs.length)

/-- The value a `DataView` getter returns for base type `b` from the raw bytes
`bs` in memory order, with endianness flag `le`. -/
def scalarValue (b : BaseType) (le : Bool) (bs : List Nat) : Value :=
  let logical := if le then bs.reverse else bs
  let u := beVal logical
  if isFloat b then .fnum (byteWidth b) u
  else if isSigned b then .num (signedVal (byteWidth b) u)
  else .num u

/-- Is the `w`-byte pattern a NaN encoding (exponent all ones, non-zero
mantissa)? -/
def isNaNBits (w : Nat) (bits : Nat) : Bool :=
  decide ((if w == 4 then 0x7F800000 else 0x7FF0000000000000) < bits % 2 ^ (8 * w - 1))

/-- The bit pattern `setFloat32`/`setFloat64` stores for the value read from
pattern `bits`: non-NaN patterns round-trip exactly (the `float32`
float↔double↔float conversion is exact off NaN), while for NaN the standard
leaves the stored encoding implementation-chosen; the canonical quiet NaN
written here is the choice of the major engines (the `float32` conversions
quieten a signalling NaN). -/
def canonFloatBits (w : Nat) (bits : Nat) : Nat :=
  if isNaNBits w bits then (if w == 4 then 0x7FC00000 else 0x7FF8000000000000)
  else bits

/-- The raw bytes a `DataView` setter stores for value `v` at base type `b`
with endianness flag `le`; `none` where the source would coerce a value of a
kind that a record produced by decode never holds at this position. -/
def scalarBytes (b : BaseType) (le : Bool) (v : Value) : Option (List Nat) :=
  match v with
  | .num n =>
    if isFloat b then none
    else
      let u := (n % ((2 ^ (8 * byteWidth b) : Nat) : Int)).toNat
      let bs := beBytes (byteWidth b) u
      some (if le then bs.reverse else bs)
  | .fnum w bits =>
    if isFloat b && w == byteWidth b then
      let stored := beBytes w (canonFloatBits w bits)
      some (if le then stored.reverse else stored)
    else none
  | _ => none

/-- JavaScript truthiness of a decoded value (`if (v)` in the branch and `'*'`
loops).  For a float bit pattern, falsy means `±0` or NaN. -/
def falsyBits (w : Nat) (bits : Nat) : Bool :=
  let mag := bits % 2 ^ (8 * w - 1)
  mag == 0 || decide ((if w == 4 then 0x7F800000 else 0x7FF0000000000000) < mag)

/-- JavaScript truthiness of a `Value`. -/
def truthy : Value → Bool
  | .num n => !(n == 0)
  | .fnum w bits => !falsyBits w bits
  | .str cs => !cs.isEmpty
  | .varr _ => true
  | .obj _ => true
  | .nullv => false
  | .undef => false

/-- Reference-constraint comparison for scalar tags: `cmp(parseInt(ref), v)`
with `cmp` equality, or inequality when the tag carried a trailing `!`. -/
def refPass (v : Value) (r : Int) (neg : Bool) : Bool :=
  match v with
  | .num n => if neg then !(n == r) else n == r
  | .fnum _ bits => if neg then !((bits : Int) == r) else (bits : Int) == r
  | _ => false

/-- Reference-constraint comparison for string tags: `cmp(ref, v)`. -/
def refPassStr (cs : List Nat) (r : List Nat) (neg : Bool) : Bool :=
  if neg then !(cs == r) else cs == r

/-- Split the first `count * sz`-byte region of `bs` into `count` chunks of
`sz` bytes (the element slots of a typed array). -/
def chunksN (sz : Nat) : Nat → List Nat → List (List Nat)
  | 0, _ => []
  | n + 1, bs => bs.take sz :: chunksN sz n (bs.drop sz)

/-- `flipArrayEndianness`: reverse the bytes inside each element slot. -/
def flipChunks (sz count : Nat) (bs : List Nat) : List Nat :=
  (chunksN sz count bs).map List.reverse |>.flatten

/-- The alignment test deciding the zero-copy branch of the typed-array path
(`idx[0] % 8 == 2` for 16-bit, `idx[0] % 8 == 4` for 32-bit,
`idx[0] % 4 == 0` for `float32`, `idx[0] % 8 == 0` for `float64`;
8-bit views are always zero-copy). -/
def zeroCopyAt (b : BaseType) (idx : Nat) : Bool :=
  match b with
  | .u8 => true
  | .i8 => true
  | .u16 => idx % 8 == 2
  | .i16 => idx % 8 == 2
  | .u32 => idx % 8 == 4
  | .i32 => idx % 8 == 4
  | .f32 => idx % 4 == 0
  | .f64 => idx % 8 == 0

/-- Logical element values of a typed array over the raw region bytes:
the platform-endian (`plat` true = little-endian host) interpretation of the
slots after `arrayToNative` flipped them when the requested endianness `le`
differs from the platform's. -/
def typedValues (plat le : Bool) (b : BaseType) (count : Nat) (region : List Nat) : List Value :=
  let work := if le == plat then region else flipChunks (byteWidth b) count region
  (chunksN (byteWidth b) count work).map (fun ch => scalarValue b plat ch)

/-- An exact (possibly unreduced) fraction, standing in for the JavaScript
number a length expression evaluates to.  The denominator stays `1` until a
division occurs, and is kept positive. -/
structure Frac where
  num : Int
  den : Nat
deriving Repr

/-- Embed an integer. -/
def Frac.ofInt (n : Int) : Frac := ⟨n, 1⟩

/-- Fraction addition (no reduction needed for the semantics used here). -/
def Frac.add (a b : Frac) : Frac := ⟨a.num * b.den + b.num * a.den, a.den * b.den⟩

/-- Fraction subtraction. -/
def Frac.sub (a b : Frac) : Frac := ⟨a.num * b.den - b.num * a.den, a.den * b.den⟩

/-- Fraction multiplication. -/
def Frac.mul (a b : Frac) : Frac := ⟨a.num * b.num, a.den * b.den⟩

/-- Fraction division by a non-zero fraction (the sign moves to the
numerator to keep the denominator positive). -/
def Frac.div (a b : Frac) : Frac :=
  if 0 ≤ b.num then ⟨a.num * b.den, a.den * b.num.toNat⟩
  else ⟨-(a.num * b.den), a.den * (-b.num).toNat⟩

/-- Truncation toward zero, as `ToIndex` does on a non-negative number. -/
def Frac.trunc (a : Frac) : Int := a.num.tdiv a.den

/-- Is the fraction an integer (JavaScript `length` valid for `new Array`)? -/
def Frac.isInt (a : Frac) : Bool := a.num.tmod a.den == 0

/-- Resolved length of an array node before conversion to an element count:
a number, NaN (an undefined name inside an arithmetic expression), Infinity
(division by zero), or `undefined` (a named length field never decoded). -/
inductive LenVal where
  | val (q : Frac)
  | nan
  | inf
  | undef
deriving Repr

/-- `struct[name]` as a length: the decoded number, `undefined` when the field
was never decoded.  A non-numeric field value is modelled as NaN (the source
would coerce it; no claim exercises that corner). -/
def lookupNum (acc : List (String × Value)) (name : String) : LenVal :=
  match acc.lookup name with
  | none => .undef
  | some (.num n) => .val (Frac.ofInt n)
  | some _ => .nan

/-- Value of one expression segment. -/
def segVal (acc : List (String × Value)) : ExTerm → LenVal
  | .lit n => .val (Frac.ofInt n)
  | .fld name => lookupNum acc name

/-- One step of the running `sum`, with JavaScript double arithmetic on the
special values: NaN absorbs, an undefined operand makes NaN, `0/0` is NaN,
`x/0` with `x ≠ 0` is `±Infinity`, and an Infinity sum stays Infinity except
that multiplying it by 0 gives NaN. -/
def applyOp (op : ExOp) (s t : LenVal) : LenVal :=
  match s, t with
  | .nan, _ => .nan
  | _, .nan => .nan
  | .undef, _ => .nan
  | _, .undef => .nan
  | .inf, .inf => if op == .sub || op == .div then .nan else .inf
  | .inf, .val b => if op == .mul && b.num == 0 then .nan else .inf
  | .val a, .inf =>
    match op with
    | .add => .inf
    | .sub => .inf
    | .mul => if a.num == 0 then .nan else .inf
    | .div => .val (Frac.ofInt 0)
  | .val a, .val b =>
    match op with
    | .add => .val (a.add b)
    | .sub => .val (a.sub b)
    | .mul => .val (a.mul b)
    | .div => if b.num == 0 then (if a.num == 0 then .nan else .inf)
              else .val (a.div b)

/-- Left-to-right evaluation of an arithmetic length expression, starting from
`sum = 0` (the first segment carries the implicit `+`). -/
def evalSegs (acc : List (String × Value)) (segs : List (ExOp × ExTerm)) : LenVal :=
  segs.foldl (fun s p => applyOp p.1 s (segVal acc p.2)) (.val (Frac.ofInt 0))

/-- Resolve a non-`'*'` length specifier: a negative literal is re-based on
the end of the buffer (`dataView.byteLength - idx[0] + length`); expression
and field forms are not re-based (the source checks `length < 0` only in the
non-string branch). -/
def resolveLength (acc : List (String × Value)) (buf : List Nat) (idx : Nat) :
    LenSpec → LenVal
  | .lit n => if n < 0 then .val (Frac.ofInt ((buf.length : Int) - (idx : Int) + n))
              else .val (Frac.ofInt n)
  | .star => .nan
  | .expr segs => evalSegs acc segs
  | .fld name => lookupNum acc name

/-- Element count taken by the typed-array path, `none` for a `RangeError`.
In the zero-copy branch an `undefined` length views the buffer to its end
(whole-buffer view, element-size divisibility required); in the copy branch
`new TypedArray(undefined)` is empty.  NaN is `ToIndex`-converted to 0, a
fractional length is truncated, Infinity and negatives throw, and the
constructed view or copy source must lie inside the buffer. -/
def typedCount (buf : List Nat) (idx sz : Nat) (zc : Bool) : LenVal → Option Nat
  | .undef =>
    if zc then
      if idx ≤ buf.length ∧ (buf.length - idx) % sz = 0
      then some ((buf.length - idx) / sz) else none
    else if idx ≤ buf.length then some 0 else none
  | .nan => if idx ≤ buf.length then some 0 else none
  | .inf => none
  | .val q =>
    if 0 ≤ q.num then
      let c := q.trunc.toNat
      if idx + c * sz ≤ buf.length then some c else none
    else none

/-- Element count of the composite path: `new Array(length)`.  `undefined`
yields the one-element array `[undefined]` with a loop that never runs; NaN,
Infinity, fractional and negative lengths throw a `RangeError`. -/
inductive CompLen where
  | thrown
  | undefArr
  | count (k : Nat)
deriving Repr

/-- Convert a resolved length for the composite (`new Array`) path. -/
def arrayCount : LenVal → CompLen
  | .undef => .undefArr
  | .nan => .thrown
  | .inf => .thrown
  | .val q => if 0 ≤ q.num ∧ q.isInt then .count q.trunc.toNat else .thrown

/-- The typed-array fast path of `readType` applies exactly when the element
tag matches `/^(u?int(8|16|32)|float(32|64))(le)?$/` — a bare scalar tag with
no `:paddedTo` and no `=ref` suffix. -/
def typedBase : Node → Option (BaseType × Bool)
  | .scalar b le 0 none => some (b, le)
  | _ => none

/-- Scan of the unpadded `'cstring'` case: `while (c = getUint8(idx + i++))`.
Returns the character codes and the final `i` (terminator included); `none`
is the `RangeError` of running off the buffer.  The fuel is called with
`buf.length + 1 - pos`, enough for every in-bounds scan. -/
def cscan (buf : List Nat) : Nat → Nat → Option (List Nat × Nat)
  | _, 0 => none
  | pos, fuel + 1 =>
    match buf[pos]? with
    | none => none
    | some 0 => some ([], 1)
    | some c =>
      match cscan buf (pos + 1) fuel with
      | none => none
      | some (cs, i) => some (c :: cs, i + 1)

/-- Scan of the padded `'cstring'` case: at most `paddedTo` bytes, stopping at
the first zero.  Returns the character codes and the stop index `i`. -/
def cscanPadded (buf : List Nat) : Nat → Nat → Option (List Nat × Nat)
  | _, 0 => some ([], 0)
  | pos, remaining + 1 =>
    match buf[pos]? with
    | none => none
    | some 0 => some ([], 0)
    | some c =>
      match cscanPadded buf (pos + 1) remaining with
      | none => none
      | some (cs, i) => some (c :: cs, i + 1)

/-- The scalar cases of `readType`: read the value, check the reference
constraint (returning `null` before the cursor moves), then advance the
cursor by `Math.max(naturalWidth, paddedTo)`. -/
def readScalar (b : BaseType) (le : Bool) (padded : Nat) (ref : Option (Int × Bool))
    (buf : List Nat) (idx : Nat) : Res × List Nat × Nat :=
  match getBytes buf idx (byteWidth b) with
  | none => (.err, buf, idx)
  | some bs =>
    let v := scalarValue b le bs
    match ref with
    | some (r, neg) =>
      if refPass v r neg then (.ok v, buf, idx + Nat.max (byteWidth b) padded)
      else (.noMatch, buf, idx)
    | none => (.ok v, buf, idx + Nat.max (byteWidth b) padded)

/-- The mutually recursive read jobs of the engine: `rType` is `readType`,
`rFields` is the field loop of `readStruct` (its accumulator is the struct
being built, which is also the environment for length lookups), `rElems` is
the element loop of a fixed-count composite array, `rStar` is the `'*'` loop,
and `rBranch` is the alternatives loop with its saved start offset `i`. -/
inductive Job where
  | rType (t : Node)
  | rFields (fs : List (String × Node))
  | rElems (ta : Node) (n : Nat) (accv : List Value)
  | rStar (ta : Node) (accv : List Value)
  | rBranch (alts : List Node) (start : Nat)

/-- The decode engine.  `plat` is `ArrayBuffer.littleEndian` (the host byte
order probed at line 332 of the source); `acc` is the in-progress struct
visible to length expressions; the buffer and cursor are threaded because the
zero-copy typed-array branch can flip buffer bytes in place.  The step fuel
only guards the recursion; a `spin` result marks fuel exhaustion. -/
def run (plat : Bool) : Nat → Job → List (String × Value) → List Nat → Nat →
    Res × List Nat × Nat
  | 0, _, _, buf, idx => (.spin, buf, idx)
  | fuel + 1, .rType t, acc, buf, idx =>
    match t with
    | .scalar b le padded ref => readScalar b le padded ref buf idx
    | .fstring padded ref =>
      match getBytes buf idx padded with
      | none => (.err, buf, idx)
      | some cs =>
        match ref with
        | some (r, neg) =>
          if refPassStr cs r neg then (.ok (.str cs), buf, idx + padded)
          else (.noMatch, buf, idx)
        | none => (.ok (.str cs), buf, idx + padded)
    | .cstr padded ref =>
      match (if padded = 0 then cscan buf idx (buf.length + 1 - idx)
             else cscanPadded buf idx padded) with
      | none => (.err, buf, idx)
      | some (cs, i) =>
        match ref with
        | some (r, neg) =>
          if refPassStr cs r neg then (.ok (.str cs), buf, idx + Nat.max i padded)
          else (.noMatch, buf, idx)
        | none => (.ok (.str cs), buf, idx + Nat.max i padded)
    | .branch alts => run plat fuel (.rBranch alts idx) acc buf idx
    | .strct fs => run plat fuel (.rFields fs) [] buf idx
    | .arr ta len =>
      match len with
      | .star => run plat fuel (.rStar ta []) acc buf idx
      | _ =>
        let l := resolveLength acc buf idx len
        match typedBase ta with
        | some (b, le) =>
          let sz := byteWidth b
          let zc := zeroCopyAt b idx
          match typedCount buf idx sz zc l with
          | none => (.err, buf, idx)
          | some count =>
            let region := (buf.drop idx).take (count * sz)
            let vs := typedValues plat le b count region
            let buf1 := if zc && (le != plat)
                        then setBytes buf idx (flipChunks sz count region)
                        else buf
            (.ok (.varr vs), buf1, idx + count * sz)
        | none =>
          match arrayCount l with
          | .thrown => (.err, buf, idx)
          | .undefArr => (.ok (.varr [.undef]), buf, idx)
          | .count n => run plat fuel (.rElems ta n []) acc buf idx
  | fuel + 1, .rFields fs, acc, buf, idx =>
    match fs with
    | [] => (.ok (.obj acc.reverse), buf, idx)
    | (n, t) :: rest =>
      match run plat fuel (.rType t) acc buf idx with
      | (.ok v, buf1, i1) => run plat fuel (.rFields rest) ((n, v) :: acc) buf1 i1
      | (.noMatch, buf1, i1) => (.noMatch, buf1, i1)
      | (e, buf1, i1) => (e, buf1, i1)
  | fuel + 1, .rElems ta n accv, acc, buf, idx =>
    match n with
    | 0 => (.ok (.varr accv.reverse), buf, idx)
    | n + 1 =>
      match run plat fuel (.rType ta) acc buf idx with
      | (.ok v, buf1, i1) => run plat fuel (.rElems ta n (v :: accv)) acc buf1 i1
      | (.noMatch, buf1, i1) => run plat fuel (.rElems ta n (.nullv :: accv)) acc buf1 i1
      | (e, buf1, i1) => (e, buf1, i1)
  | fuel + 1, .rStar ta accv, acc, buf, idx =>
    if idx < buf.length then
      match run plat fuel (.rType ta) acc buf idx with
      | (.ok v, buf1, i1) =>
        if truthy v then run plat fuel (.rStar ta (v :: accv)) acc buf1 i1
        else (.ok (.varr accv.reverse), buf1, i1)
      | (.noMatch, buf1, i1) => (.ok (.varr accv.reverse), buf1, i1)
      | (e, buf1, i1) => (e, buf1, i1)
    else (.ok (.varr accv.reverse), buf, idx)
  | fuel + 1, .rBranch alts start, acc, buf, idx =>
    match alts with
    | [] => (.noMatch, buf, idx)
    | t :: rest =>
      match run plat fuel (.rType t) acc buf start with
      | (.ok v, buf1, i1) =>
        if truthy v then (.ok v, buf1, i1)
        else if rest.isEmpty then (.ok v, buf1, i1)
        else run plat fuel (.rBranch rest start) acc buf1 i1
      | (.noMatch, buf1, i1) =>
        if rest.isEmpty then (.noMatch, buf1, i1)
        else run plat fuel (.rBranch rest start) acc buf1 i1
      | (e, buf1, i1) => (e, buf1, i1)

/-- `readType(dataView, idx, t, struct)`. -/
def readType (plat : Bool) (fuel : Nat) (t : Node) (acc : List (String × Value))
    (buf : List Nat) (idx : Nat) : Res × List Nat × Nat :=
  run plat fuel (.rType t) acc buf idx

/-- `readStruct(dataView, idx, structDefinition)`: decode the fields in
declared order into a fresh record. -/
def readStruct (plat : Bool) (fuel : Nat) (fs : List (String × Node))
    (buf : List Nat) (idx : Nat) : Res × List Nat × Nat :=
  run plat fuel (.rFields fs) [] buf idx

/-- The write jobs: `wType` is `writeType`, `wFields` the field loop of
`writeStruct`, `wElems` the element loop of the array case. -/
inductive WJob where
  | wType (t : Node) (v : Value)
  | wFields (fs : List (String × Node)) (v : Value)
  | wElems (ta : Node) (vs : List Value)

/-- The encode engine.  `writeType` switches on the exact tag string, so any
tag carrying a `:paddedTo` or `=ref` suffix, the `'string'` tag, and the
8-bit `le` tags fall through to the default case, which treats the tag string
as a nested struct definition and iterates its characters — ending in a
`TypeError`/unbounded recursion without writing a byte; those cases are
`none` here.  `none` also covers an out-of-range write (the `DataView` with a
fixed buffer throws) and fuel exhaustion. -/
def wrun : Nat → WJob → List Nat → Nat → Option (List Nat × Nat)
  | 0, _, _, _ => none
  | fuel + 1, .wType t v, buf, idx =>
    match t with
    | .scalar b le 0 none =>
      if le && (b == .u8 || b == .i8) then none
      else
        match scalarBytes b le v with
        | none => none
        | some bs =>
          if idx + bs.length ≤ buf.length then some (setBytes buf idx bs, idx + bs.length)
          else none
    | .scalar _ _ _ _ => none
    | .fstring _ _ => none
    | .cstr 0 none =>
      match v with
      | .str cs =>
        let bs := cs.map (· % 256) ++ [0]
        if idx + bs.length ≤ buf.length then some (setBytes buf idx bs, idx + bs.length)
        else none
      | _ => none
    | .cstr _ _ => none
    | .arr ta _ =>
      match v with
      | .varr vs => wrun fuel (.wElems ta vs) buf idx
      | .num _ => some (buf, idx)
      | .fnum _ _ => some (buf, idx)
      | .obj _ => some (buf, idx)
      | _ => none
    | .branch alts =>
      match alts with
      | [] => none
      | ta :: _ =>
        match v with
        | .varr vs => wrun fuel (.wElems ta vs) buf idx
        | .num _ => some (buf, idx)
        | .fnum _ _ => some (buf, idx)
        | .obj _ => some (buf, idx)
        | _ => none
    | .strct fs => wrun fuel (.wFields fs v) buf idx
  | fuel + 1, .wFields fs v, buf, idx =>
    match fs with
    | [] => some (buf, idx)
    | (n, t) :: rest =>
      match v with
      | .obj kvs =>
        match kvs.lookup n with
        | some fv =>
          match wrun fuel (.wType t fv) buf idx with
          | some (buf1, i1) => wrun fuel (.wFields rest v) buf1 i1
          | none => none
        | none => none
      | _ => none
  | fuel + 1, .wElems ta vs, buf, idx =>
    match vs with
    | [] => some (buf, idx)
    | v :: rest =>
      match wrun fuel (.wType ta v) buf idx with
      | some (buf1, i1) => wrun fuel (.wElems ta rest) buf1 i1
      | none => none

/-- `writeType(dataView, idx, t, v)`. -/
def writeType (fuel : Nat) (t : Node) (v : Value) (buf : List Nat) (idx : Nat) :
    Option (List Nat × Nat) :=
  wrun fuel (.wType t v) buf idx

/-- `writeStruct(dataView, idx, structDefinition, struct)`. -/
def writeStruct (fuel : Nat) (fs : List (String × Node)) (v : Value)
    (buf : List Nat) (idx : Nat) : Option (List Nat × Nat) :=
  wrun fuel (.wFields fs v) buf idx

/-- Buffers whose entries are genuine bytes. -/
def ByteBuf (buf : List Nat) : Prop := ∀ b ∈ buf, b < 256

/-- `xs` and `ys` agree at every index outside `[lo, hi)`. -/
def agreeOutside (lo hi : Nat) (xs ys : List Nat) : Prop :=
  ∀ j, j < lo ∨ hi ≤ j → xs[j]? = ys[j]?

/-- `xs` and `ys` agree at every index inside `[lo, hi)`. -/
def agreeOn (lo hi : Nat) (xs ys : List Nat) : Prop :=
  ∀ j, lo ≤ j → j < hi → xs[j]? = ys[j]?

/-- Nodes whose decode never takes the typed-array mapping path, the only
place where the engine can write to the input buffer (the in-place
`flipArrayEndianness` of a zero-copy view).  A `'*'` array is included even
over a scalar element tag, because the `'*'` loop reads its elements
one at a time through `readType` rather than through a typed view. -/
inductive PureNode : Node → Prop
  | scalar (b le p r) : PureNode (.scalar b le p r)
  | fstr (p r) : PureNode (.fstring p r)
  | cstrP (p r) : PureNode (.cstr p r)
  | arrStar (ta) : PureNode ta → PureNode (.arr ta .star)
  | arrComp (ta l) : PureNode ta → typedBase ta = none → PureNode (.arr ta l)
  | branchP (alts) : (∀ t ∈ alts, PureNode t) → PureNode (.branch alts)
  | strctP (fs) : (∀ p ∈ fs, PureNode p.2) → PureNode (.strct fs)

/-- Lift `PureNode` to the read jobs. -/
def PureJob : Job → Prop
  | .rType t => PureNode t
  | .rFields fs => ∀ p ∈ fs, PureNode p.2
  | .rElems ta _ _ => PureNode ta
  | .rStar ta _ => PureNode ta
  | .rBranch alts _ => ∀ t ∈ alts, PureNode t

/-- The schema fragment on which `writeType` implements a byte-exact inverse
of `readType`: branch-free, `'*'`-free, every tag one of the exact strings the
`writeType` switch handles (bare scalar tags other than `uint8le`/`int8le`,
and bare `cstring`; no `:paddedTo`, no `=ref`, no `'string'` tag), struct
field names distinct, and no `float32`/`float64` tags — `writeType` does
handle the float tags, but `setFloat32`/`setFloat64` stores an
implementation-chosen NaN encoding, so a float field whose bytes form a NaN
pattern decodes successfully yet need not write back byte-identically. -/
inductive Writable : Node → Prop
  | scalarW (b le) (h : le = false ∨ (b ≠ .u8 ∧ b ≠ .i8))
      (hnf : isFloat b = false) :
      Writable (.scalar b le 0 none)
  | cstrW : Writable (.cstr 0 none)
  | arrW (ta l) (h : Writable ta) (hl : l ≠ .star) : Writable (.arr ta l)
  | strctW (fs) (hnd : (fs.map Prod.fst).Nodup) (hf : ∀ p ∈ fs, Writable p.2) :
      Writable (.strct fs)

/-- Write-side conclusion of the round-trip argument: the encode pass over
`[lo, hi)` produced `out` from `buf2`, reproducing the read buffer `src` on
the written region and leaving `buf2` untouched elsewhere. -/
def WScope (lo hi : Nat) (src buf2 out : List Nat) : Prop :=
  out.length = buf2.length ∧ agreeOutside lo hi out buf2 ∧ agreeOn lo hi out src

/-- C6: the schema `{n:'uint8', data:['uint8','n-1']}` over bytes
`[5,10,20,30,40]` decodes `n = 5` and `data = [10,20,30,40]` (4 elements),
the arithmetic length `n-1` being evaluated left-to-right with the first
term implicitly added. -/
theorem arith_length_example_decodes :
    readStruct true 20
      [("n", .scalar .u8 false 0 none),
       ("data", .arr (.scalar .u8 false 0 none) (.expr [(.add, .fld "n"), (.sub, .lit 1)]))]
      [5,10,20,30,40] 0 =
    (.ok (.obj [("n", .num 5), ("data", .varr [.num 10, .num 20, .num 30, .num 40])]),
     [5,10,20,30,40], 5) := rfl

/-- C2 amended: a failed reference constraint returns `null` after the value
was read but before the cursor moves, so the offset (and the buffer) are
unchanged when the `NoMatch` propagates, for scalar, `string`, and `cstring`
fields alike. -/
theorem refMismatch_leaves_cursor :
    (∀ plat fuel b le padded r acc buf idx out,
      readType plat fuel (.scalar b le padded (some r)) acc buf idx = (.noMatch, out) →
      out = (buf, idx)) ∧
    (∀ plat fuel padded r acc buf idx out,
      readType plat fuel (.fstring padded (some r)) acc buf idx = (.noMatch, out) →
      out = (buf, idx)) ∧
    (∀ plat fuel padded r acc buf idx out,
      readType plat fuel (.cstr padded (some r)) acc buf idx = (.noMatch, out) →
      out = (buf, idx)) := by
  refine ⟨?_, ?_, ?_⟩
  · intro plat fuel b le padded r acc buf idx out h
    cases fuel with
    | zero => simp [readType, run] at h
    | succ f =>
      simp only [readType, run, readScalar] at h
      rcases hg : getBytes buf idx (byteWidth b) with _ | bs <;> rw [hg] at h
      · simp at h
      · obtain ⟨r1, neg⟩ := r
        by_cases hp : refPass (scalarValue b le bs) r1 neg = true <;> simp [hp] at h
        exact h.symm
  · intro plat fuel padded r acc buf idx out h
    cases fuel with
    | zero => simp [readType, run] at h
    | succ f =>
      simp only [readType, run] at h
      rcases hg : getBytes buf idx padded with _ | cs <;> rw [hg] at h
      · simp at h
      · obtain ⟨r1, neg⟩ := r
        by_cases hp : refPassStr cs r1 neg = true <;> simp [hp] at h
        exact h.symm
  · intro plat fuel padded r acc buf idx out h
    cases fuel with
    | zero => simp [readType, run] at h
    | succ f =>
      simp only [readType, run] at h
      rcases hs : (if padded = 0 then cscan buf idx (buf.length + 1 - idx)
                   else cscanPadded buf idx padded) with _ | p <;> rw [hs] at h
      · simp at h
      · obtain ⟨cs, i⟩ := p
        obtain ⟨r1, neg⟩ := r
        by_cases hp : refPassStr cs r1 neg = true <;> simp [hp] at h
        exact h.symm

/-- C2 counterexample: decoding `'uint8=1'` over the byte `[2]` fails the
constraint and leaves the offset at 0 — it has not advanced by the field
width 1, contradicting the claim that the cursor still advances before the
`NoMatch` propagates. -/
theorem refMismatch_cursor_counterexample :
    readType true 5 (.scalar .u8 false 0 (some (1, false))) [] [2] 0 =
      (.noMatch, [2], 0) ∧
    (readType true 5 (.scalar .u8 false 0 (some (1, false))) [] [2] 0).2.2 ≠
      0 + byteWidth .u8 := by
  refine ⟨rfl, ?_⟩
  intro h
  simp [readType, run, readScalar, getBytes, scalarValue, refPass, beVal, byteWidth,
    isFloat, isSigned] at h

/-- C2 witness. -/
theorem refMismatch_leaves_cursor_witness :
    ([2], 0) = (([2] : List Nat), (0 : Nat)) :=
  refMismatch_leaves_cursor.1 true 5 .u8 false 0 (1, false) [] [2] 0 ([2], 0) rfl

/-- C5 counterexample: an array node of literal length 0 decodes successfully
(to an empty typed array, a truthy JavaScript object) without the offset
strictly increasing. -/
theorem zero_length_array_no_advance :
    readType true 5 (.arr (.scalar .u8 false 0 none) (.lit 0)) [] [1,2,3] 0 =
      (.ok (.varr []), [1,2,3], 0) := rfl

/-- C5 amended: a successful scalar decode advances the offset by exactly
`Math.max(naturalWidth, paddedTo)`, which is strictly positive; in
particular `'uint16:8'` always advances by 8, never 2. -/
theorem scalar_advance_is_padded_width :
    ∀ plat fuel b le padded ref acc buf idx v buf1 i1,
      readType plat fuel (.scalar b le padded ref) acc buf idx = (.ok v, buf1, i1) →
      i1 = idx + Nat.max (byteWidth b) padded ∧ idx < i1 ∧ buf1 = buf := by
  intro plat fuel b le padded ref acc buf idx v buf1 i1 h
  have hw : 1 ≤ byteWidth b := by cases b <;> simp [byteWidth]
  have hm : byteWidth b ≤ Nat.max (byteWidth b) padded := Nat.le_max_left _ _
  cases fuel with
  | zero => simp [readType, run] at h
  | succ f =>
    simp only [readType, run, readScalar] at h
    rcases hg : getBytes buf idx (byteWidth b) with _ | bs <;> rw [hg] at h
    · simp at h
    · rcases ref with _ | ⟨r1, neg⟩
      · simp at h
        refine ⟨h.2.2.symm, ?_, h.2.1.symm⟩
        omega
      · by_cases hp : refPass (scalarValue b le bs) r1 neg = true <;> simp [hp] at h
        refine ⟨h.2.2.symm, ?_, h.2.1.symm⟩
        omega

/-- C5 witness: `'uint16:8'` at offset 0 advances to 8. -/
theorem scalar_advance_is_padded_width_witness :
    (8 : Nat) = 0 + Nat.max (byteWidth .u16) 8 ∧ 0 < 8 ∧
      ([1,2,3,4,5,6,7,8] : List Nat) = [1,2,3,4,5,6,7,8] :=
  scalar_advance_is_padded_width true 5 .u16 false 8 none [] [1,2,3,4,5,6,7,8] 0
    (.num 258) [1,2,3,4,5,6,7,8] 8 rfl

/-- C7: decoding an array whose length names a field that was never decoded
does not fail loudly.  A named unknown field gives `undefined`, which the
always-zero-copy `Uint8Array(buffer, idx, undefined)` turns into a view to
the end of the buffer; inside an arithmetic expression it gives NaN, which
`ToIndex` turns into length 0.  Both decodes succeed silently. -/
theorem unknown_length_field_silently_decodes :
    readStruct true 20 [("data", .arr (.scalar .u8 false 0 none) (.fld "m"))]
      [1,2,3] 0 =
      (.ok (.obj [("data", .varr [.num 1, .num 2, .num 3])]), [1,2,3], 3) ∧
    readStruct true 20
      [("data", .arr (.scalar .u8 false 0 none) (.expr [(.add, .fld "m"), (.sub, .lit 1)]))]
      [1,2,3] 0 =
      (.ok (.obj [("data", .varr [])]), [1,2,3], 0) := ⟨rfl, rfl⟩

/-- C3 counterexample: decoding a big-endian `uint32` array of length 1 at
offset 4 (where `idx % 8 == 4` selects the zero-copy view) on a little-endian
platform byte-swaps the mapped region of the input buffer in place: the
buffer comes back changed. -/
theorem zero_copy_flip_mutates_buffer :
    readType true 5 (.arr (.scalar .u32 false 0 none) (.lit 1)) [] [0,0,0,0,1,2,3,4] 4 =
      (.ok (.varr [.num 16909060]), [0,0,0,0,4,3,2,1], 8) ∧
    ([0,0,0,0,4,3,2,1] : List Nat) ≠ [0,0,0,0,1,2,3,4] := by
  exact ⟨rfl, by decide⟩

/-- C10: when a branch alternative fails with `null`, the engine moves on
without restoring the cursor; and when the failing alternative is the last
one, the branch returns that `null` with the cursor left wherever the failed
attempt advanced it (the reset to the saved start offset happens only before
an attempt, never after the final failure). -/
theorem branch_failure_keeps_last_offset :
    ∀ plat fuel t rest acc buf idx i0 buf1 i1,
      run plat fuel (.rType t) acc buf i0 = (.noMatch, buf1, i1) →
      run plat (fuel+1) (.rBranch (t :: rest) i0) acc buf idx =
        (if rest.isEmpty then (Res.noMatch, buf1, i1)
         else run plat fuel (.rBranch rest i0) acc buf1 i1) := by
  intro plat fuel t rest acc buf idx i0 buf1 i1 h
  cases rest with
  | nil => simp only [run, h, List.isEmpty_nil, if_true]
  | cons a as => simp only [run, h, List.isEmpty_cons, if_false, Bool.false_eq_true]

/-- C10 witness: a single alternative `{a:'uint8', b:'uint8=9'}` over bytes
`[5,6]` fails after its first field advanced the cursor to 1; the branch
returns the `null` with the cursor still at 1. -/
theorem branch_failure_keeps_last_offset_witness :
    run true 10 (.rBranch [.strct [("a", .scalar .u8 false 0 none),
                                   ("b", .scalar .u8 false 0 (some (9, false)))]] 0)
      [] [5,6] 0 = (.noMatch, [5,6], 1) := by
  have h := branch_failure_keeps_last_offset true 9
    (.strct [("a", .scalar .u8 false 0 none), ("b", .scalar .u8 false 0 (some (9, false)))])
    [] [] [5,6] 0 0 [5,6] 1 rfl
  simpa using h

/-- C4 counterexample: in the branch loop the success test is `if (v)`
(JavaScript truthiness), so a first alternative that decodes to the scalar
value 0 is treated as a failed match and skipped: over the byte `[0]`, the
branch `['uint8', {a:'uint8=5'}]` does not return the 0 of its first
alternative but falls through to the second and fails. -/
theorem branch_zero_value_counterexample :
    readType true 10 (.branch [.scalar .u8 false 0 none,
                               .strct [("a", .scalar .u8 false 0 (some (5, false)))]])
      [] [0] 0 = (.noMatch, [0], 0) ∧
    readType true 10 (.branch [.scalar .u8 false 0 none,
                               .strct [("a", .scalar .u8 false 0 (some (5, false)))]])
      [] [0] 0 ≠ (.ok (.num 0), [0], 1) := by
  have h0 : readType true 10 (.branch [.scalar .u8 false 0 none,
      .strct [("a", .scalar .u8 false 0 (some (5, false)))]]) [] [0] 0 =
      (.noMatch, [0], 0) := rfl
  refine ⟨h0, ?_⟩
  intro h
  rw [h0] at h
  simp at h

/-- C4 amended: alternatives are tried in declared order from the same saved
start offset, and the first alternative whose decoded value is JavaScript
truthy wins with its offset advance kept; a falsy success value (such as the
scalar 0) is treated like a failure and the next alternative is tried. -/
theorem branch_first_truthy_wins :
    ∀ plat fuel t rest acc buf idx i0 v buf1 i1,
      run plat fuel (.rType t) acc buf i0 = (.ok v, buf1, i1) → truthy v = true →
      run plat (fuel+1) (.rBranch (t :: rest) i0) acc buf idx = (.ok v, buf1, i1) := by
  intro plat fuel t rest acc buf idx i0 v buf1 i1 h ht
  simp only [run, h, ht, if_true]

/-- C4 witness: the first alternative `{a:'uint8=5'}` matches over `[5]` and
wins immediately. -/
theorem branch_first_truthy_wins_witness :
    run true 10 (.rBranch [.strct [("a", .scalar .u8 false 0 (some (5, false)))],
                           .scalar .u8 false 0 none] 0) [] [5] 0 =
      (.ok (.obj [("a", .num 5)]), [5], 1) :=
  branch_first_truthy_wins true 9 _ _ [] [5] 0 0 _ [5] 1 rfl rfl

/-- C8 counterexample: a `'*'` array of `{a:'uint8', b:'uint8=9'}` over
`[1,9,3,4]` keeps the element decoded before the stop, but the failed third
attempt read `a` and advanced the cursor to 3 before failing on `b`; the
final offset is 3, not the offset 2 reached after the last successful
element — the partial advance is not discarded. -/
theorem star_offset_not_discarded :
    readType true 10 (.arr (.strct [("a", .scalar .u8 false 0 none),
                                    ("b", .scalar .u8 false 0 (some (9, false)))]) .star)
      [] [1,9,3,4] 0 =
      (.ok (.varr [.obj [("a", .num 1), ("b", .num 9)]]), [1,9,3,4], 3) ∧
    (readType true 10 (.arr (.strct [("a", .scalar .u8 false 0 none),
                                     ("b", .scalar .u8 false 0 (some (9, false)))]) .star)
      [] [1,9,3,4] 0).2.2 ≠ 2 := by
  have h0 : readType true 10 (.arr (.strct [("a", .scalar .u8 false 0 none),
      ("b", .scalar .u8 false 0 (some (9, false)))]) .star) [] [1,9,3,4] 0 =
      (.ok (.varr [.obj [("a", .num 1), ("b", .num 9)]]), [1,9,3,4], 3) := rfl
  refine ⟨h0, ?_⟩
  rw [h0]
  simp

/-- C8 amended: the `'*'` loop keeps the elements decoded before the stop,
but on a failed element attempt the loop returns with the cursor wherever
that failed attempt left it (its partial advance is kept, not discarded);
an element decoding to a truthy value is appended and the loop continues
from the attempt's end state. -/
theorem star_loop_keeps_failed_advance :
    (∀ plat fuel ta accv acc buf idx buf1 i1, idx < buf.length →
       run plat fuel (.rType ta) acc buf idx = (.noMatch, buf1, i1) →
       run plat (fuel+1) (.rStar ta accv) acc buf idx =
         (.ok (.varr accv.reverse), buf1, i1)) ∧
    (∀ plat fuel ta accv acc buf idx v buf1 i1, idx < buf.length →
       run plat fuel (.rType ta) acc buf idx = (.ok v, buf1, i1) → truthy v = true →
       run plat (fuel+1) (.rStar ta accv) acc buf idx =
         run plat fuel (.rStar ta (v :: accv)) acc buf1 i1) := by
  constructor
  · intro plat fuel ta accv acc buf idx buf1 i1 hlt h
    simp only [run, if_pos hlt, h]
  · intro plat fuel ta accv acc buf idx v buf1 i1 hlt h ht
    simp only [run, if_pos hlt, h, ht, if_true]

/-- C8 witness: over `[7]`, a `'*'` array of `'uint8=1'` fails its first
attempt without advancing; the loop stops with no elements at offset 0. -/
theorem star_loop_keeps_failed_advance_witness :
    run true 10 (.rStar (.scalar .u8 false 0 (some (1, false))) []) [] [7] 0 =
      (.ok (.varr []), [7], 0) :=
  star_loop_keeps_failed_advance.1 true 9 _ [] [] [7] 0 [7] 0 (by decide) rfl

/-- C9: a `uint32le` array of length 3 decoded over the same 12 bytes gives
the same three integers whether the offset takes the zero-copy branch
(`idx % 8 == 4`) or, misaligned to 4, the copy-and-swap branch; only the
buffer mutation differs between the two paths. -/
theorem typed_map_alignment_independent :
    ∀ plat buf1 buf2 i1 i2 bs fuel,
      i1 % 8 = 4 → i2 % 4 ≠ 0 →
      getBytes buf1 i1 12 = some bs → getBytes buf2 i2 12 = some bs →
      ∃ vs out1,
        readType plat (fuel+1) (.arr (.scalar .u32 true 0 none) (.lit 3)) [] buf1 i1 =
          (.ok (.varr vs), out1, i1 + 12) ∧
        readType plat (fuel+1) (.arr (.scalar .u32 true 0 none) (.lit 3)) [] buf2 i2 =
          (.ok (.varr vs), buf2, i2 + 12) := by
  intro plat buf1 buf2 i1 i2 bs fuel ha1 ha2 hg1 hg2
  have hz1 : zeroCopyAt .u32 i1 = true := by simp [zeroCopyAt, ha1]
  have hz2 : zeroCopyAt .u32 i2 = false := by
    simp only [zeroCopyAt, beq_eq_false_iff_ne, ne_eq]
    intro h
    exact ha2 (by omega)
  have hb1 : i1 + 12 ≤ buf1.length := by
    by_contra hc
    simp [getBytes, hc] at hg1
  have hr1 : (buf1.drop i1).take 12 = bs := by
    simp [getBytes, hb1] at hg1
    exact hg1
  have hb2 : i2 + 12 ≤ buf2.length := by
    by_contra hc
    simp [getBytes, hc] at hg2
  have hr2 : (buf2.drop i2).take 12 = bs := by
    simp [getBytes, hb2] at hg2
    exact hg2
  have hc1 : typedCount buf1 i1 (byteWidth .u32) true (.val (Frac.ofInt 3)) = some 3 := by
    simp [typedCount, Frac.ofInt, Frac.trunc, byteWidth, Int.tdiv, hb1]
  have hc2 : typedCount buf2 i2 (byteWidth .u32) false (.val (Frac.ofInt 3)) = some 3 := by
    simp [typedCount, Frac.ofInt, Frac.trunc, byteWidth, Int.tdiv, hb2]
  have hres1 : resolveLength [] buf1 i1 (.lit 3) = .val (Frac.ofInt 3) := by
    simp [resolveLength]
  have hres2 : resolveLength [] buf2 i2 (.lit 3) = .val (Frac.ofInt 3) := by
    simp [resolveLength]
  refine ⟨typedValues plat true .u32 3 bs,
    if (true != plat) = true then setBytes buf1 i1 (flipChunks 4 3 bs) else buf1, ?_, ?_⟩
  · simp only [readType, run, typedBase, hres1, hz1, hc1]
    norm_num [byteWidth, hr1]
  · simp only [readType, run, typedBase, hres2, hz2, hc2]
    norm_num [byteWidth, hr2]

/-- C9 witness: the same 12 bytes at the zero-copy offset 12 and at the
misaligned offset 1 decode to the same three little-endian integers. -/
theorem typed_map_alignment_independent_witness :
    ∃ vs out1,
      readType true 3 (.arr (.scalar .u32 true 0 none) (.lit 3)) []
          ([0,0,0,0,0,0,0,0,0,0,0,0] ++ [1,0,0,0,2,0,0,0,3,0,0,0]) 12 =
        (.ok (.varr vs), out1, 12 + 12) ∧
      readType true 3 (.arr (.scalar .u32 true 0 none) (.lit 3)) []
          ([9] ++ [1,0,0,0,2,0,0,0,3,0,0,0]) 1 =
        (.ok (.varr vs), [9] ++ [1,0,0,0,2,0,0,0,3,0,0,0], 1 + 12) :=
  typed_map_alignment_independent true _ _ 12 1 [1,0,0,0,2,0,0,0,3,0,0,0] 2
    (by decide) (by decide) (by decide) (by decide)

/-- C1 counterexample: the schema `{x:'uint16:8'}` decodes successfully
(consuming 8 bytes), but `writeType` has no case for the padded tag string
`'uint16:8'` — it falls through to the default, treats the tag as a nested
struct definition and throws without writing, for every fuel, target buffer
and offset; the original bytes are never reproduced. -/
theorem roundtrip_fails_on_padded_scalar :
    readStruct true 5 [("x", .scalar .u16 false 8 none)] [1,2,3,4,5,6,7,8] 0 =
      (.ok (.obj [("x", .num 258)]), [1,2,3,4,5,6,7,8], 8) ∧
    ∀ fuel buf idx, writeStruct fuel [("x", .scalar .u16 false 8 none)]
      (.obj [("x", .num 258)]) buf idx = none := by
  refine ⟨rfl, ?_⟩
  intro fuel buf idx
  cases fuel with
  | zero => rfl
  | succ f =>
    cases f with
    | zero => rfl
    | succ f2 => rfl

/-- `readScalar` never writes to the buffer. -/
theorem readScalar_preserves_buffer (b : BaseType) (le : Bool) (padded : Nat)
    (ref : Option (Int × Bool)) (buf : List Nat) (idx : Nat) :
    (readScalar b le padded ref buf idx).2.1 = buf := by
  unfold readScalar
  rcases getBytes buf idx (byteWidth b) with _ | bs
  · rfl
  · rcases ref with _ | ⟨r1, neg⟩
    · rfl
    · by_cases hp : refPass (scalarValue b le bs) r1 neg = true <;> simp [hp]

/-- C3 amended: decode can write to the input buffer only through the
zero-copy typed-array mapping (the in-place endianness flip); on any schema
that never takes that path — no array node with a bare scalar element tag
and a non-`'*'` length — the buffer comes back unchanged, whatever the
result.  (The schema itself is never written to: schema nodes are read-only
throughout the engine.) -/
theorem pure_schema_preserves_buffer :
    ∀ fuel plat job acc buf idx r buf1 i1,
      PureJob job →
      run plat fuel job acc buf idx = (r, buf1, i1) → buf1 = buf := by
  intro fuel
  induction fuel with
  | zero =>
    intro plat job acc buf idx r buf1 i1 _ h
    simp only [run] at h
    exact (Prod.mk.injEq _ _ _ _ ▸ congrArg Prod.snd h).1.symm ▸ rfl
  | succ f ih =>
    intro plat job acc buf idx r buf1 i1 hp h
    cases job with
    | rType t =>
      cases hp with
      | scalar b le p rf =>
        simp only [run] at h
        have := readScalar_preserves_buffer b le p rf buf idx
        rw [h] at this
        exact this
      | fstr p rf =>
        simp only [run] at h
        rcases hg : getBytes buf idx p with _ | cs <;> rw [hg] at h
        · cases h; rfl
        · rcases rf with _ | ⟨r1, neg⟩
          · cases h; rfl
          · by_cases hc : refPassStr cs r1 neg = true <;> simp [hc] at h <;>
              exact h.2.1.symm
      | cstrP p rf =>
        simp only [run] at h
        rcases hs : (if p = 0 then cscan buf idx (buf.length + 1 - idx)
                     else cscanPadded buf idx p) with _ | pr <;> rw [hs] at h
        · cases h; rfl
        · obtain ⟨cs, i⟩ := pr
          rcases rf with _ | ⟨r1, neg⟩
          · cases h; rfl
          · by_cases hc : refPassStr cs r1 neg = true <;> simp [hc] at h <;>
              exact h.2.1.symm
      | arrStar ta hta =>
        simp only [run] at h
        exact ih plat (.rStar ta []) acc buf idx r buf1 i1 hta h
      | arrComp ta l hta htb =>
        cases l with
        | star =>
          simp only [run] at h
          exact ih plat (.rStar ta []) acc buf idx r buf1 i1 hta h
        | lit n =>
          simp only [run, htb] at h
          rcases hac : arrayCount (resolveLength acc buf idx (.lit n)) with _ | _ | k <;>
            rw [hac] at h
          · cases h; rfl
          · cases h; rfl
          · exact ih plat (.rElems ta k []) acc buf idx r buf1 i1 hta h
        | expr segs =>
          simp only [run, htb] at h
          rcases hac : arrayCount (resolveLength acc buf idx (.expr segs)) with _ | _ | k <;>
            rw [hac] at h
          · cases h; rfl
          · cases h; rfl
          · exact ih plat (.rElems ta k []) acc buf idx r buf1 i1 hta h
        | fld name =>
          simp only [run, htb] at h
          rcases hac : arrayCount (resolveLength acc buf idx (.fld name)) with _ | _ | k <;>
            rw [hac] at h
          · cases h; rfl
          · cases h; rfl
          · exact ih plat (.rElems ta k []) acc buf idx r buf1 i1 hta h
      | branchP alts halts =>
        simp only [run] at h
        exact ih plat (.rBranch alts idx) acc buf idx r buf1 i1 halts h
      | strctP fs hfs =>
        simp only [run] at h
        exact ih plat (.rFields fs) [] buf idx r buf1 i1 hfs h
    | rFields fs =>
      cases fs with
      | nil => simp only [run] at h; cases h; rfl
      | cons p rest =>
        obtain ⟨n, t⟩ := p
        simp only [run] at h
        rcases hrun : run plat f (.rType t) acc buf idx with ⟨res, bufm, im⟩
        rw [hrun] at h
        have hmid : bufm = buf :=
          ih plat (.rType t) acc buf idx res bufm im (hp _ (List.mem_cons_self _ _)) hrun
        cases res with
        | ok v =>
          have : buf1 = bufm :=
            ih plat (.rFields rest) ((n, v) :: acc) bufm im r buf1 i1
              (fun q hq => hp q (List.mem_cons_of_mem _ hq)) h
          rw [this, hmid]
        | noMatch => cases h; exact hmid
        | err => cases h; exact hmid
        | spin => cases h; exact hmid
    | rElems ta k accv =>
      cases k with
      | zero => simp only [run] at h; cases h; rfl
      | succ k1 =>
        simp only [run] at h
        rcases hrun : run plat f (.rType ta) acc buf idx with ⟨res, bufm, im⟩
        rw [hrun] at h
        have hmid : bufm = buf := ih plat (.rType ta) acc buf idx res bufm im hp hrun
        cases res with
        | ok v =>
          have : buf1 = bufm :=
            ih plat (.rElems ta k1 (v :: accv)) acc bufm im r buf1 i1 hp h
          rw [this, hmid]
        | noMatch =>
          have : buf1 = bufm :=
            ih plat (.rElems ta k1 (.nullv :: accv)) acc bufm im r buf1 i1 hp h
          rw [this, hmid]
        | err => cases h; exact hmid
        | spin => cases h; exact hmid
    | rStar ta accv =>
      simp only [run] at h
      by_cases hlt : idx < buf.length
      · rw [if_pos hlt] at h
        rcases hrun : run plat f (.rType ta) acc buf idx with ⟨res, bufm, im⟩
        rw [hrun] at h
        have hmid : bufm = buf := ih plat (.rType ta) acc buf idx res bufm im hp hrun
        cases res with
        | ok v =>
          have h2 : (if truthy v = true then run plat f (.rStar ta (v :: accv)) acc bufm im
                     else (Res.ok (Value.varr accv.reverse), bufm, im)) = (r, buf1, i1) := h
          by_cases ht : truthy v = true
          · rw [if_pos ht] at h2
            have : buf1 = bufm :=
              ih plat (.rStar ta (v :: accv)) acc bufm im r buf1 i1 hp h2
            rw [this, hmid]
          · rw [if_neg ht] at h2
            cases h2
            exact hmid
        | noMatch => cases h; exact hmid
        | err => cases h; exact hmid
        | spin => cases h; exact hmid
      · rw [if_neg hlt] at h
        cases h; rfl
    | rBranch alts start =>
      cases alts with
      | nil => simp only [run] at h; cases h; rfl
      | cons t rest =>
        simp only [run] at h
        rcases hrun : run plat f (.rType t) acc buf start with ⟨res, bufm, im⟩
        rw [hrun] at h
        have hmid : bufm = buf :=
          ih plat (.rType t) acc buf start res bufm im (hp _ (List.mem_cons_self _ _)) hrun
        have hrest : PureJob (.rBranch rest start) :=
          fun q hq => hp q (List.mem_cons_of_mem _ hq)
        cases res with
        | ok v =>
          have h2 : (if truthy v = true then ((Res.ok v, bufm, im) : Res × List Nat × Nat)
                     else if rest.isEmpty then (Res.ok v, bufm, im)
                     else run plat f (.rBranch rest start) acc bufm im) = (r, buf1, i1) := h
          by_cases ht : truthy v = true
          · rw [if_pos ht] at h2
            cases h2; exact hmid
          · rw [if_neg ht] at h2
            by_cases he : rest.isEmpty = true
            · rw [if_pos he] at h2
              cases h2; exact hmid
            · rw [if_neg he] at h2
              have : buf1 = bufm :=
                ih plat (.rBranch rest start) acc bufm im r buf1 i1 hrest h2
              rw [this, hmid]
        | noMatch =>
          have h2 : (if rest.isEmpty then ((Res.noMatch, bufm, im) : Res × List Nat × Nat)
                     else run plat f (.rBranch rest start) acc bufm im) = (r, buf1, i1) := h
          by_cases he : rest.isEmpty = true
          · rw [if_pos he] at h2
            cases h2; exact hmid
          · rw [if_neg he] at h2
            have : buf1 = bufm :=
              ih plat (.rBranch rest start) acc bufm im r buf1 i1 hrest h2
            rw [this, hmid]
        | err => cases h; exact hmid
        | spin => cases h; exact hmid

/-- C3 witness: a `cstring` decode hands the buffer back unchanged. -/
theorem pure_schema_preserves_buffer_witness :
    ([72,105,0] : List Nat) = [72,105,0] :=
  pure_schema_preserves_buffer 5 true (.rType (.cstr 0 none)) [] [72,105,0] 0
    (.ok (.str [72,105])) [72,105,0] 3 (PureNode.cstrP 0 none) rfl

/-- `beBytes` always produces `w` bytes. -/
theorem beBytes_length (w n : Nat) : (beBytes w n).length = w := by
  induction w generalizing n with
  | zero => rfl
  | succ w ih => simp [beBytes, ih]

/-- A byte list's big-endian value is bounded by `2 ^ (8 * length)`. -/
theorem beVal_lt (bs : List Nat) (h : ∀ b ∈ bs, b < 256) :
    beVal bs < 2 ^ (8 * bs.length) := by
  induction bs with
  | nil => simp [beVal]
  | cons b tl ih =>
    have hb : b < 256 := h b (List.mem_cons_self _ _)
    have ht := ih (fun x hx => h x (List.mem_cons_of_mem _ hx))
    have : b * 2 ^ (8 * tl.length) + beVal tl < (b + 1) * 2 ^ (8 * tl.length) := by
      nlinarith
    calc beVal (b :: tl) = b * 2 ^ (8 * tl.length) + beVal tl := rfl
      _ < (b + 1) * 2 ^ (8 * tl.length) := this
      _ ≤ 256 * 2 ^ (8 * tl.length) := by
          have : b + 1 ≤ 256 := hb
          exact Nat.mul_le_mul_right _ this
      _ = 2 ^ (8 * (tl.length + 1)) := by ring
  
/-- `beBytes` ignores multiples of `2 ^ (8 * w)`. -/
theorem beBytes_add_mul (w a c : Nat) : beBytes w (a + c * 2 ^ (8 * w)) = beBytes w a := by
  induction w generalizing c with
  | zero => rfl
  | succ w ih =>
    simp only [beBytes]
    congr 1
    · have e : a + c * 2 ^ (8 * (w + 1)) = a + (c * 256) * 2 ^ (8 * w) := by ring
      rw [e, Nat.add_mul_div_right _ _ (Nat.pos_pow_of_pos _ (by norm_num)),
        Nat.add_mul_mod_self_right]
    · have : a + c * 2 ^ (8 * (w + 1)) = a + (c * 256) * 2 ^ (8 * w) := by ring
      rw [this, ih]

/-- Writing back a bounded value recovers its big-endian bytes. -/
theorem beBytes_beVal (bs : List Nat) (h : ∀ b ∈ bs, b < 256) :
    beBytes bs.length (beVal bs) = bs := by
  induction bs with
  | nil => rfl
  | cons b tl ih =>
    have hb : b < 256 := h b (List.mem_cons_self _ _)
    have htl : ∀ x ∈ tl, x < 256 := fun x hx => h x (List.mem_cons_of_mem _ hx)
    have hlt := beVal_lt tl htl
    simp only [List.length_cons, beBytes, beVal]
    congr 1
    · rw [Nat.add_comm, Nat.add_mul_div_right _ _ (Nat.pos_pow_of_pos _ (by norm_num)),
        Nat.div_eq_of_lt hlt]
      simp [Nat.mod_eq_of_lt hb]
    · rw [Nat.add_comm]
      rw [beBytes_add_mul tl.length (beVal tl) b]
      exact ih htl

/-- For the non-float base types, writing back the value that a `DataView`
getter produced stores exactly the raw bytes the getter consumed (for the
float types this fails on NaN patterns, whose stored encoding is
implementation-chosen). -/
theorem scalarBytes_scalarValue (b : BaseType) (le : Bool) (bs : List Nat)
    (hf : isFloat b = false)
    (hlen : bs.length = byteWidth b) (hb : ∀ x ∈ bs, x < 256) :
    scalarBytes b le (scalarValue b le bs) = some bs := by
  have hlog : (if le then bs.reverse else bs).length = byteWidth b := by
    cases le <;> simp [hlen]
  have hmem : ∀ x ∈ (if le then bs.reverse else bs), x < 256 := by
    cases le <;> simp_all
  have hval := beVal_lt _ hmem
  rw [hlog] at hval
  have hback : beBytes (byteWidth b) (beVal (if le then bs.reverse else bs)) =
      (if le then bs.reverse else bs) := by
    conv_lhs => rw [← hlog]
    exact beBytes_beVal _ hmem
  have horient : (if le then (if le then bs.reverse else bs).reverse
                  else (if le then bs.reverse else bs)) = bs := by
    cases le <;> simp
  by_cases hs : isSigned b = true
  · simp only [scalarValue, scalarBytes, hf, hs, if_true, if_false, Bool.false_eq_true,
      Option.some.injEq]
    have hmod : (signedVal (byteWidth b) (beVal (if le then bs.reverse else bs)) %
        ((2 ^ (8 * byteWidth b) : Nat) : Int)).toNat =
        beVal (if le then bs.reverse else bs) := by
      set u := beVal (if le then bs.reverse else bs) with hu
      unfold signedVal
      by_cases hlt : u < 2 ^ (8 * byteWidth b - 1)
      · rw [if_pos hlt]
        rw [Int.emod_eq_of_lt (by positivity) (by exact_mod_cast hval)]
        simp
      · rw [if_neg hlt]
        have h1 : ((u : Int) - 2 ^ (8 * byteWidth b)) % ((2 ^ (8 * byteWidth b) : Nat) : Int) =
            (u : Int) % ((2 ^ (8 * byteWidth b) : Nat) : Int) := by
          push_cast
          rw [Int.sub_emod, Int.emod_self, sub_zero, Int.emod_emod_of_dvd _ dvd_rfl]
        rw [h1, Int.emod_eq_of_lt (by positivity) (by exact_mod_cast hval)]
        simp
    rw [hmod, hback]
    exact horient
  · rw [Bool.not_eq_true] at hs
    simp only [scalarValue, scalarBytes, hf, hs, if_false, Bool.false_eq_true,
      Option.some.injEq]
    have hmod : (((beVal (if le then bs.reverse else bs) : Nat) : Int) %
        ((2 ^ (8 * byteWidth b) : Nat) : Int)).toNat =
        beVal (if le then bs.reverse else bs) := by
      rw [Int.emod_eq_of_lt (by positivity) (by exact_mod_cast hval)]
      simp
    rw [hmod, hback]
    exact horient

/-- Length is preserved by an in-bounds `setBytes`. -/
theorem setBytes_length (buf bs : List Nat) (pos : Nat)
    (h : pos + bs.length ≤ buf.length) :
    (setBytes buf pos bs).length = buf.length := by
  simp only [setBytes, List.length_append, List.length_take, List.length_drop]
  omega

/-- `setBytes` leaves indices outside `[pos, pos + bs.length)` unchanged. -/
theorem setBytes_getElem_outside (buf bs : List Nat) (pos j : Nat)
    (h : pos + bs.length ≤ buf.length) (hj : j < pos ∨ pos + bs.length ≤ j) :
    (setBytes buf pos bs)[j]? = buf[j]? := by
  have htk : (buf.take pos).length = pos := by
    simp only [List.length_take]
    omega
  rcases hj with hj | hj
  · rw [setBytes, List.getElem?_append_left, List.getElem?_append_left,
      List.getElem?_take_of_lt hj]
    · omega
    · simp only [List.length_append, htk]
      omega
  · rw [setBytes, List.getElem?_append_right, List.getElem?_drop]
    · congr 1
      simp only [List.length_append, htk]
      omega
    · simp only [List.length_append, htk]
      omega

/-- `setBytes` stores `bs` at `[pos, pos + bs.length)`. -/
theorem setBytes_getElem_inside (buf bs : List Nat) (pos j : Nat)
    (h : pos + bs.length ≤ buf.length) (h1 : pos ≤ j) (h2 : j < pos + bs.length) :
    (setBytes buf pos bs)[j]? = bs[j - pos]? := by
  have htk : (buf.take pos).length = pos := by
    simp only [List.length_take]
    omega
  rw [setBytes, List.getElem?_append_left, List.getElem?_append_right]
  · rw [htk]
  · omega
  · simp only [List.length_append, htk]
    omega

/-- What a successful `getBytes` says about its pieces. -/
theorem getBytes_spec (buf : List Nat) (pos n : Nat) (bs : List Nat)
    (h : getBytes buf pos n = some bs) :
    bs.length = n ∧ pos + n ≤ buf.length ∧ (∀ j, j < n → bs[j]? = buf[pos + j]?) := by
  by_cases hb : pos + n ≤ buf.length
  · simp only [getBytes, if_pos hb, Option.some.injEq] at h
    subst h
    refine ⟨by simp [List.length_take, List.length_drop]; omega, hb, ?_⟩
    intro j hj
    rw [List.getElem?_take_of_lt hj, List.getElem?_drop]
  · simp [getBytes, if_neg hb] at h

/-- Bytes obtained by `getBytes` are bytes of the buffer. -/
theorem getBytes_mem (buf : List Nat) (pos n : Nat) (bs : List Nat)
    (h : getBytes buf pos n = some bs) : ∀ x ∈ bs, x ∈ buf := by
  by_cases hb : pos + n ≤ buf.length
  · simp only [getBytes, if_pos hb, Option.some.injEq] at h
    subst h
    intro x hx
    exact List.drop_subset _ _ (List.take_subset _ _ hx)
  · simp [getBytes, if_neg hb] at h

/-- What a successful unpadded `cstring` scan says: `i` counts the characters
plus the terminator, the scanned region holds exactly the characters followed
by a zero byte, and every character is a byte of the buffer. -/
theorem cscan_spec (buf : List Nat) :
    ∀ fuel pos cs i, cscan buf pos fuel = some (cs, i) →
      i = cs.length + 1 ∧ pos + i ≤ buf.length ∧
      (∀ j, j < cs.length → buf[pos + j]? = cs[j]?) ∧
      buf[pos + cs.length]? = some 0 ∧ (∀ c ∈ cs, c ∈ buf) := by
  intro fuel
  induction fuel with
  | zero => intro pos cs i h; simp [cscan] at h
  | succ f ih =>
    intro pos cs i h
    simp only [cscan] at h
    rcases hb : buf[pos]? with _ | c <;> rw [hb] at h
    · simp at h
    · rcases c with _ | c1
      · simp only [Option.some.injEq, Prod.mk.injEq] at h
        obtain ⟨h1, h2⟩ := h
        subst h1; subst h2
        have hlt : pos < buf.length := by
          by_contra hc
          rw [List.getElem?_eq_none (by omega)] at hb
          exact Option.noConfusion hb
        refine ⟨rfl, by omega, by intro j hj; simp at hj, by simpa using hb,
          by intro c hc; simp at hc⟩
      · rcases hr : cscan buf (pos + 1) f with _ | pr <;> rw [hr] at h
        · simp at h
        · obtain ⟨cs1, i1⟩ := pr
          simp only [Option.some.injEq, Prod.mk.injEq] at h
          obtain ⟨h1, h2⟩ := h
          subst h1; subst h2
          obtain ⟨e1, e2, e3, e4, e5⟩ := ih (pos + 1) cs1 i1 hr
          refine ⟨by simp [e1], by omega, ?_, ?_, ?_⟩
          · intro j hj
            cases j with
            | zero => simpa using hb
            | succ j1 =>
              have : pos + (j1 + 1) = (pos + 1) + j1 := by omega
              rw [this]
              simp only [List.length_cons] at hj
              have := e3 j1 (by omega)
              simpa using this
          · have : pos + ((c1 + 1) :: cs1).length = (pos + 1) + cs1.length := by
              simp only [List.length_cons]
              omega
            rw [this]
            exact e4
          · intro c hc
            rcases List.mem_cons.mp hc with rfl | hc
            · exact List.getElem?_mem hb
            · exact e5 c hc

/-- `List.lookup` skips a prefix that does not contain the key. -/
theorem lookup_append_not_mem (l1 l2 : List (String × Value)) (n : String)
    (h : n ∉ l1.map Prod.fst) : (l1 ++ l2).lookup n = l2.lookup n := by
  induction l1 with
  | nil => rfl
  | cons p rest ih =>
    obtain ⟨m, v⟩ := p
    have hn : ¬(n == m) = true := by
      simp only [List.map_cons, List.mem_cons] at h
      simp only [beq_iff_eq]
      exact fun e => h (Or.inl e)
    simp only [List.cons_append, List.lookup, hn, Bool.false_eq_true, if_false]
    exact ih (fun hm => h (List.mem_cons_of_mem _ hm))

/-- Two agreement windows compose. -/
theorem agreeOutside_trans (lo mid hi : Nat) (xs ys zs : List Nat)
    (h1 : lo ≤ mid) (h2 : mid ≤ hi)
    (ha : agreeOutside lo mid ys xs) (hb : agreeOutside mid hi zs ys) :
    agreeOutside lo hi zs xs := by
  intro j hj
  have e1 : zs[j]? = ys[j]? := hb j (by omega)
  have e2 : ys[j]? = xs[j]? := ha j (by omega)
  rw [e1, e2]

/-- Composition step of the write-side argument: the head write covered
`[lo, mid)` against the original buffer, the tail write covered `[mid, hi)`
against the read-mutated buffer `bufA`, and the read mutation is confined
below `mid`. -/
theorem WScope.comp (lo mid hi : Nat) (buf bufA buf2 out1 out : List Nat)
    (h1 : lo ≤ mid) (h2 : mid ≤ hi)
    (hA : WScope lo mid buf buf2 out1) (hB : WScope mid hi bufA out1 out)
    (habove : ∀ j, mid ≤ j → bufA[j]? = buf[j]?) :
    WScope lo hi buf buf2 out := by
  obtain ⟨la, oa, na⟩ := hA
  obtain ⟨lb, ob, nb⟩ := hB
  refine ⟨lb.trans la, agreeOutside_trans lo mid hi buf2 out1 out h1 h2 oa ob, ?_⟩
  intro j hj1 hj2
  by_cases hm : j < mid
  · have e1 : out[j]? = out1[j]? := ob j (Or.inl hm)
    rw [e1]
    exact na j hj1 hm
  · have e1 : out[j]? = bufA[j]? := nb j (by omega) hj2
    rw [e1]
    exact habove j (by omega)

/-- `chunksN` of an exactly-sized region flattens back; flipping each chunk
keeps the length. -/
theorem flipChunks_length (sz : Nat) :
    ∀ count bs, bs.length = count * sz → (flipChunks sz count bs).length = count * sz := by
  intro count
  induction count with
  | zero => intro bs h; simp [flipChunks, chunksN]
  | succ c ih =>
    intro bs h
    have hsz : sz ≤ bs.length := by
      rw [h]; calc sz = 1 * sz := (Nat.one_mul sz).symm
        _ ≤ (c + 1) * sz := Nat.mul_le_mul_right _ (by omega)
    simp only [flipChunks, chunksN, List.map_cons, List.flatten_cons]
    have ht : (bs.take sz).reverse.length = sz := by
      simp [List.length_take]
      omega
    have hd : (bs.drop sz).length = c * sz := by
      simp [List.length_drop, h]
      calc (c + 1) * sz - sz = c * sz + sz - sz := by ring_nf
        _ = c * sz := by omega
    have := ih (bs.drop sz) hd
    simp only [List.length_append, ht]
    rw [show (List.map List.reverse (chunksN sz c (bs.drop sz))).flatten =
      flipChunks sz c (bs.drop sz) from rfl, this]
    ring

/-- Every byte of a flipped region is a byte of the region. -/
theorem flipChunks_subset (sz : Nat) :
    ∀ count bs x, x ∈ flipChunks sz count bs → x ∈ bs := by
  intro count
  induction count with
  | zero => intro bs x h; simp [flipChunks, chunksN] at h
  | succ c ih =>
    intro bs x h
    simp only [flipChunks, chunksN, List.map_cons, List.flatten_cons,
      List.mem_append, List.mem_reverse] at h
    rcases h with h | h
    · exact List.take_subset _ _ h
    · exact List.drop_subset _ _ (ih (bs.drop sz) x h)

/-- `scalarValue` with the opposite endianness of reversed bytes. -/
theorem scalarValue_reverse (b : BaseType) (plat le : Bool) (h : ¬ le = plat)
    (ch : List Nat) : scalarValue b plat ch.reverse = scalarValue b le ch := by
  cases plat <;> cases le <;> simp_all [scalarValue, List.reverse_reverse]

/-- Unfolding one element slot of the typed-array value computation. -/
theorem typedValues_cons (plat le : Bool) (b : BaseType) (count : Nat)
    (region : List Nat) (hlen : region.length = (count + 1) * byteWidth b) :
    typedValues plat le b (count + 1) region =
      scalarValue b le (region.take (byteWidth b)) ::
        typedValues plat le b count (region.drop (byteWidth b)) := by
  set sz := byteWidth b with hsz
  have hle : sz ≤ region.length := by
    rw [hlen]
    calc sz = 1 * sz := (Nat.one_mul sz).symm
      _ ≤ (count + 1) * sz := Nat.mul_le_mul_right _ (by omega)
  by_cases hp : le = plat
  · simp only [typedValues, hp, beq_self_eq_true, if_true, chunksN, List.map_cons]
  · have hne : ¬(le == plat) = true := by simpa using hp
    simp only [typedValues, hne, Bool.false_eq_true, if_false]
    have hflip : flipChunks sz (count + 1) region =
        (region.take sz).reverse ++ flipChunks sz count (region.drop sz) := rfl
    have htk : (region.take sz).reverse.length = sz := by
      simp [List.length_take]
      omega
    have h1 : (flipChunks sz (count + 1) region).take sz = (region.take sz).reverse := by
      rw [hflip, List.take_left' htk]
    have h2 : (flipChunks sz (count + 1) region).drop sz = flipChunks sz count (region.drop sz) := by
      rw [hflip, List.drop_left' htk]
    simp only [chunksN, List.map_cons, h1, h2]
    congr 1
    exact scalarValue_reverse b plat le hp _

/-- A successful `typedCount` keeps the mapped region inside the buffer. -/
theorem typedCount_le (buf : List Nat) (idx sz : Nat) (zc : Bool) (l : LenVal)
    (count : Nat) (h : typedCount buf idx sz zc l = some count) :
    idx + count * sz ≤ buf.length := by
  cases l with
  | undef =>
    simp only [typedCount] at h
    split at h
    · split at h
      · next hcond =>
        injection h with h
        subst h
        rw [Nat.div_mul_cancel (Nat.dvd_of_mod_eq_zero hcond.2)]
        omega
      · exact absurd h (by simp)
    · split at h
      · next hcond =>
        injection h with h
        rw [← h]
        simpa using hcond
      · exact absurd h (by simp)
  | nan =>
    simp only [typedCount] at h
    split at h
    · next hcond =>
      injection h with h
      rw [← h]
      simpa using hcond
    · exact absurd h (by simp)
  | inf => simp [typedCount] at h
  | val q =>
    simp only [typedCount] at h
    split at h
    · split at h
      · next hbound =>
        injection h with h
        subst h
        exact hbound
      · exact absurd h (by simp)
    · exact absurd h (by simp)

/-- On the writable fragment (no reference constraints, no branches, no `'*'`
arrays) a read never produces the `null` no-match signal; fixed-count element
loops never produce it for any element type (a failed element is stored as a
`null` entry instead). -/
theorem writable_no_noMatch : ∀ fuel plat,
    (∀ t acc buf idx, Writable t →
      (run plat fuel (.rType t) acc buf idx).1 ≠ .noMatch) ∧
    (∀ ta n accv acc buf idx,
      (run plat fuel (.rElems ta n accv) acc buf idx).1 ≠ .noMatch) ∧
    (∀ fs acc buf idx, (∀ p ∈ fs, Writable p.2) →
      (run plat fuel (.rFields fs) acc buf idx).1 ≠ .noMatch) := by
  intro fuel
  induction fuel with
  | zero =>
    intro plat
    refine ⟨?_, ?_, ?_⟩
    · intro t acc buf idx _ h
      simp [run] at h
    · intro ta n accv acc buf idx h
      simp [run] at h
    · intro fs acc buf idx _ h
      simp [run] at h
  | succ f ih =>
    intro plat
    obtain ⟨ihT, ihE, ihF⟩ := ih plat
    refine ⟨?_, ?_, ?_⟩
    · intro t acc buf idx hW
      cases hW with
      | scalarW b le hle hnf =>
        simp only [run, readScalar]
        rcases getBytes buf idx (byteWidth b) with _ | bs <;> simp
      | cstrW =>
        simp only [run]
        rcases hs : cscan buf idx (buf.length + 1 - idx) with _ | p
        · simp
        · obtain ⟨cs, i⟩ := p
          simp
      | arrW ta l hWt hl =>
        cases l with
        | star => exact absurd rfl hl
        | lit n =>
          simp only [run]
          rcases ht : typedBase ta with _ | p
          · dsimp only
            rcases ha : arrayCount (resolveLength acc buf idx (.lit n)) with _ | _ | k
            · simp
            · simp
            · exact ihE ta k [] acc buf idx
          · obtain ⟨b, le⟩ := p
            dsimp only
            rcases hc : typedCount buf idx (byteWidth b) (zeroCopyAt b idx)
              (resolveLength acc buf idx (.lit n)) with _ | count <;> simp
        | expr segs =>
          simp only [run]
          rcases ht : typedBase ta with _ | p
          · dsimp only
            rcases ha : arrayCount (resolveLength acc buf idx (.expr segs)) with _ | _ | k
            · simp
            · simp
            · exact ihE ta k [] acc buf idx
          · obtain ⟨b, le⟩ := p
            dsimp only
            rcases hc : typedCount buf idx (byteWidth b) (zeroCopyAt b idx)
              (resolveLength acc buf idx (.expr segs)) with _ | count <;> simp
        | fld name =>
          simp only [run]
          rcases ht : typedBase ta with _ | p
          · dsimp only
            rcases ha : arrayCount (resolveLength acc buf idx (.fld name)) with _ | _ | k
            · simp
            · simp
            · exact ihE ta k [] acc buf idx
          · obtain ⟨b, le⟩ := p
            dsimp only
            rcases hc : typedCount buf idx (byteWidth b) (zeroCopyAt b idx)
              (resolveLength acc buf idx (.fld name)) with _ | count <;> simp
      | strctW fs hnd hf =>
        simp only [run]
        exact ihF fs [] buf idx hf
    · intro ta n accv acc buf idx
      cases n with
      | zero => simp [run]
      | succ n1 =>
        simp only [run]
        rcases hrun : run plat f (.rType ta) acc buf idx with ⟨res, bufm, im⟩
        cases res with
        | ok v => exact ihE ta n1 (v :: accv) acc bufm im
        | noMatch => exact ihE ta n1 (.nullv :: accv) acc bufm im
        | err => simp
        | spin => simp
    · intro fs acc buf idx hf
      cases fs with
      | nil => simp [run]
      | cons p rest =>
        obtain ⟨n, t⟩ := p
        simp only [run]
        rcases hrun : run plat f (.rType t) acc buf idx with ⟨res, bufm, im⟩
        cases res with
        | ok v =>
          exact ihF rest ((n, v) :: acc) bufm im
            (fun q hq => hf q (List.mem_cons_of_mem _ hq))
        | noMatch =>
          have := ihT t acc buf idx (hf (n, t) (List.mem_cons_self _ _))
          rw [hrun] at this
          simp at this
        | err => simp
        | spin => simp

/-- On the writable fragment a successful read preserves the buffer length,
never moves the cursor backwards, mutates only bytes of the consumed window
`[idx, i1)` (the typed-array in-place flip), and keeps the buffer made of
bytes. -/
theorem writable_read_extent : ∀ fuel plat,
    (∀ t acc buf idx v buf1 i1, Writable t →
      run plat fuel (.rType t) acc buf idx = (.ok v, buf1, i1) →
      buf1.length = buf.length ∧ idx ≤ i1 ∧ agreeOutside idx i1 buf1 buf ∧
        (ByteBuf buf → ByteBuf buf1)) ∧
    (∀ ta k accv acc buf idx v buf1 i1, Writable ta →
      run plat fuel (.rElems ta k accv) acc buf idx = (.ok v, buf1, i1) →
      buf1.length = buf.length ∧ idx ≤ i1 ∧ agreeOutside idx i1 buf1 buf ∧
        (ByteBuf buf → ByteBuf buf1)) ∧
    (∀ fs acc buf idx v buf1 i1, (∀ p ∈ fs, Writable p.2) →
      run plat fuel (.rFields fs) acc buf idx = (.ok v, buf1, i1) →
      buf1.length = buf.length ∧ idx ≤ i1 ∧ agreeOutside idx i1 buf1 buf ∧
        (ByteBuf buf → ByteBuf buf1)) := by
  intro fuel
  induction fuel with
  | zero =>
    intro plat
    refine ⟨?_, ?_, ?_⟩
    · intro t acc buf idx v buf1 i1 _ h
      simp [run] at h
    · intro ta k accv acc buf idx v buf1 i1 _ h
      simp [run] at h
    · intro fs acc buf idx v buf1 i1 _ h
      simp [run] at h
  | succ f ih =>
    intro plat
    obtain ⟨ihT, ihE, ihF⟩ := ih plat
    refine ⟨?_, ?_, ?_⟩
    · intro t acc buf idx v buf1 i1 hW h
      cases hW with
      | scalarW b le hle hnf =>
        simp only [run, readScalar] at h
        rcases hg : getBytes buf idx (byteWidth b) with _ | bs <;> rw [hg] at h
        · cases h
        · have h4 : ((Res.ok (scalarValue b le bs), buf, idx + Nat.max (byteWidth b) 0) :
              Res × List Nat × Nat) = (.ok v, buf1, i1) := h
          simp only [Prod.mk.injEq] at h4
          obtain ⟨-, h2, h3⟩ := h4
          subst h2; subst h3
          exact ⟨rfl, by omega, fun j hj => rfl, fun hb => hb⟩
      | cstrW =>
        simp only [run] at h
        rcases hs : cscan buf idx (buf.length + 1 - idx) with _ | p <;> rw [hs] at h
        · cases h
        · obtain ⟨cs, i⟩ := p
          have h4 : ((Res.ok (Value.str cs), buf, idx + Nat.max i 0) :
              Res × List Nat × Nat) = (.ok v, buf1, i1) := h
          simp only [Prod.mk.injEq] at h4
          obtain ⟨-, h2, h3⟩ := h4
          subst h2; subst h3
          exact ⟨rfl, by omega, fun j hj => rfl, fun hb => hb⟩
      | arrW ta l hWt hl =>
        cases l with
        | star => exact absurd rfl hl
        | lit n =>
          simp only [run] at h
          rcases ht : typedBase ta with _ | p
          · rw [ht] at h
            dsimp only at h
            rcases ha : arrayCount (resolveLength acc buf idx (.lit n)) with _ | _ | k <;>
              rw [ha] at h
            · cases h
            · have h4 : ((Res.ok (Value.varr [Value.undef]), buf, idx) :
                  Res × List Nat × Nat) = (.ok v, buf1, i1) := h
              simp only [Prod.mk.injEq] at h4
              obtain ⟨-, h2, h3⟩ := h4
              subst h2; subst h3
              exact ⟨rfl, le_refl _, fun j hj => rfl, fun hb => hb⟩
            · exact ihE ta k [] acc buf idx v buf1 i1 hWt h
          · obtain ⟨b, le⟩ := p
            rw [ht] at h
            dsimp only at h
            rcases hc : typedCount buf idx (byteWidth b) (zeroCopyAt b idx)
              (resolveLength acc buf idx (.lit n)) with _ | count <;> rw [hc] at h
            · cases h
            · have hbound := typedCount_le _ _ _ _ _ _ hc
              have hreg : ((buf.drop idx).take (count * byteWidth b)).length =
                  count * byteWidth b := by
                rw [List.length_take, List.length_drop]
                omega
              have h4 : ((Res.ok (Value.varr (typedValues plat le b count
                    ((buf.drop idx).take (count * byteWidth b)))),
                  if (zeroCopyAt b idx && (le != plat)) = true then
                    setBytes buf idx (flipChunks (byteWidth b) count
                      ((buf.drop idx).take (count * byteWidth b)))
                  else buf,
                  idx + count * byteWidth b) : Res × List Nat × Nat) = (.ok v, buf1, i1) := h
              simp only [Prod.mk.injEq] at h4
              obtain ⟨-, h2, h3⟩ := h4
              subst h2; subst h3
              by_cases hz : (zeroCopyAt b idx && (le != plat)) = true
              · rw [if_pos hz]
                have hfl : (flipChunks (byteWidth b) count
                    ((buf.drop idx).take (count * byteWidth b))).length =
                    count * byteWidth b := flipChunks_length _ _ _ hreg
                refine ⟨?_, by omega, ?_, ?_⟩
                · rw [setBytes_length]
                  rw [hfl]; omega
                · intro j hj
                  apply setBytes_getElem_outside
                  · rw [hfl]; omega
                  · rw [hfl]; omega
                · intro hb x hx
                  simp only [setBytes, List.mem_append] at hx
                  rcases hx with (hx | hx) | hx
                  · exact hb x (List.take_subset _ _ hx)
                  · have := flipChunks_subset _ _ _ _ hx
                    exact hb x (List.drop_subset _ _ (List.take_subset _ _ this))
                  · exact hb x (List.drop_subset _ _ hx)
              · rw [if_neg hz]
                exact ⟨rfl, by omega, fun j hj => rfl, fun hb => hb⟩
        | expr segs =>
          simp only [run] at h
          rcases ht : typedBase ta with _ | p
          · rw [ht] at h
            dsimp only at h
            rcases ha : arrayCount (resolveLength acc buf idx (.expr segs)) with _ | _ | k <;>
              rw [ha] at h
            · cases h
            · have h4 : ((Res.ok (Value.varr [Value.undef]), buf, idx) :
                  Res × List Nat × Nat) = (.ok v, buf1, i1) := h
              simp only [Prod.mk.injEq] at h4
              obtain ⟨-, h2, h3⟩ := h4
              subst h2; subst h3
              exact ⟨rfl, le_refl _, fun j hj => rfl, fun hb => hb⟩
            · exact ihE ta k [] acc buf idx v buf1 i1 hWt h
          · obtain ⟨b, le⟩ := p
            rw [ht] at h
            dsimp only at h
            rcases hc : typedCount buf idx (byteWidth b) (zeroCopyAt b idx)
              (resolveLength acc buf idx (.expr segs)) with _ | count <;> rw [hc] at h
            · cases h
            · have hbound := typedCount_le _ _ _ _ _ _ hc
              have hreg : ((buf.drop idx).take (count * byteWidth b)).length =
                  count * byteWidth b := by
                rw [List.length_take, List.length_drop]
                omega
              have h4 : ((Res.ok (Value.varr (typedValues plat le b count
                    ((buf.drop idx).take (count * byteWidth b)))),
                  if (zeroCopyAt b idx && (le != plat)) = true then
                    setBytes buf idx (flipChunks (byteWidth b) count
                      ((buf.drop idx).take (count * byteWidth b)))
                  else buf,
                  idx + count * byteWidth b) : Res × List Nat × Nat) = (.ok v, buf1, i1) := h
              simp only [Prod.mk.injEq] at h4
              obtain ⟨-, h2, h3⟩ := h4
              subst h2; subst h3
              by_cases hz : (zeroCopyAt b idx && (le != plat)) = true
              · rw [if_pos hz]
                have hfl : (flipChunks (byteWidth b) count
                    ((buf.drop idx).take (count * byteWidth b))).length =
                    count * byteWidth b := flipChunks_length _ _ _ hreg
                refine ⟨?_, by omega, ?_, ?_⟩
                · rw [setBytes_length]
                  rw [hfl]; omega
                · intro j hj
                  apply setBytes_getElem_outside
                  · rw [hfl]; omega
                  · rw [hfl]; omega
                · intro hb x hx
                  simp only [setBytes, List.mem_append] at hx
                  rcases hx with (hx | hx) | hx
                  · exact hb x (List.take_subset _ _ hx)
                  · have := flipChunks_subset _ _ _ _ hx
                    exact hb x (List.drop_subset _ _ (List.take_subset _ _ this))
                  · exact hb x (List.drop_subset _ _ hx)
              · rw [if_neg hz]
                exact ⟨rfl, by omega, fun j hj => rfl, fun hb => hb⟩
        | fld name =>
          simp only [run] at h
          rcases ht : typedBase ta with _ | p
          · rw [ht] at h
            dsimp only at h
            rcases ha : arrayCount (resolveLength acc buf idx (.fld name)) with _ | _ | k <;>
              rw [ha] at h
            · cases h
            · have h4 : ((Res.ok (Value.varr [Value.undef]), buf, idx) :
                  Res × List Nat × Nat) = (.ok v, buf1, i1) := h
              simp only [Prod.mk.injEq] at h4
              obtain ⟨-, h2, h3⟩ := h4
              subst h2; subst h3
              exact ⟨rfl, le_refl _, fun j hj => rfl, fun hb => hb⟩
            · exact ihE ta k [] acc buf idx v buf1 i1 hWt h
          · obtain ⟨b, le⟩ := p
            rw [ht] at h
            dsimp only at h
            rcases hc : typedCount buf idx (byteWidth b) (zeroCopyAt b idx)
              (resolveLength acc buf idx (.fld name)) with _ | count <;> rw [hc] at h
            · cases h
            · have hbound := typedCount_le _ _ _ _ _ _ hc
              have hreg : ((buf.drop idx).take (count * byteWidth b)).length =
                  count * byteWidth b := by
                rw [List.length_take, List.length_drop]
                omega
              have h4 : ((Res.ok (Value.varr (typedValues plat le b count
                    ((buf.drop idx).take (count * byteWidth b)))),
                  if (zeroCopyAt b idx && (le != plat)) = true then
                    setBytes buf idx (flipChunks (byteWidth b) count
                      ((buf.drop idx).take (count * byteWidth b)))
                  else buf,
                  idx + count * byteWidth b) : Res × List Nat × Nat) = (.ok v, buf1, i1) := h
              simp only [Prod.mk.injEq] at h4
              obtain ⟨-, h2, h3⟩ := h4
              subst h2; subst h3
              by_cases hz : (zeroCopyAt b idx && (le != plat)) = true
              · rw [if_pos hz]
                have hfl : (flipChunks (byteWidth b) count
                    ((buf.drop idx).take (count * byteWidth b))).length =
                    count * byteWidth b := flipChunks_length _ _ _ hreg
                refine ⟨?_, by omega, ?_, ?_⟩
                · rw [setBytes_length]
                  rw [hfl]; omega
                · intro j hj
                  apply setBytes_getElem_outside
                  · rw [hfl]; omega
                  · rw [hfl]; omega
                · intro hb x hx
                  simp only [setBytes, List.mem_append] at hx
                  rcases hx with (hx | hx) | hx
                  · exact hb x (List.take_subset _ _ hx)
                  · have := flipChunks_subset _ _ _ _ hx
                    exact hb x (List.drop_subset _ _ (List.take_subset _ _ this))
                  · exact hb x (List.drop_subset _ _ hx)
              · rw [if_neg hz]
                exact ⟨rfl, by omega, fun j hj => rfl, fun hb => hb⟩
      | strctW fs hnd hf =>
        simp only [run] at h
        exact ihF fs [] buf idx v buf1 i1 hf h
    · intro ta k accv acc buf idx v buf1 i1 hW h
      cases k with
      | zero =>
        simp only [run] at h
        have h4 : ((Res.ok (Value.varr accv.reverse), buf, idx) :
            Res × List Nat × Nat) = (.ok v, buf1, i1) := h
        simp only [Prod.mk.injEq] at h4
        obtain ⟨-, h2, h3⟩ := h4
        subst h2; subst h3
        exact ⟨rfl, le_refl _, fun j hj => rfl, fun hb => hb⟩
      | succ k1 =>
        simp only [run] at h
        rcases hrun : run plat f (.rType ta) acc buf idx with ⟨res, bufm, im⟩
        rw [hrun] at h
        cases res with
        | ok w =>
          obtain ⟨e1, e2, e3, e4⟩ := ihT ta acc buf idx w bufm im hW hrun
          obtain ⟨g1, g2, g3, g4⟩ := ihE ta k1 (w :: accv) acc bufm im v buf1 i1 hW h
          exact ⟨g1.trans e1, by omega,
            agreeOutside_trans idx im i1 buf bufm buf1 e2 g2 e3 g3,
            fun hb => g4 (e4 hb)⟩
        | noMatch =>
          have := (writable_no_noMatch f plat).1 ta acc buf idx hW
          rw [hrun] at this
          simp at this
        | err => cases h
        | spin => cases h
    · intro fs acc buf idx v buf1 i1 hf h
      cases fs with
      | nil =>
        simp only [run] at h
        have h4 : ((Res.ok (Value.obj acc.reverse), buf, idx) :
            Res × List Nat × Nat) = (.ok v, buf1, i1) := h
        simp only [Prod.mk.injEq] at h4
        obtain ⟨-, h2, h3⟩ := h4
        subst h2; subst h3
        exact ⟨rfl, le_refl _, fun j hj => rfl, fun hb => hb⟩
      | cons p rest =>
        obtain ⟨n, t⟩ := p
        simp only [run] at h
        rcases hrun : run plat f (.rType t) acc buf idx with ⟨res, bufm, im⟩
        rw [hrun] at h
        cases res with
        | ok w =>
          obtain ⟨e1, e2, e3, e4⟩ :=
            ihT t acc buf idx w bufm im (hf (n, t) (List.mem_cons_self _ _)) hrun
          obtain ⟨g1, g2, g3, g4⟩ := ihF rest ((n, w) :: acc) bufm im v buf1 i1
            (fun q hq => hf q (List.mem_cons_of_mem _ hq)) h
          exact ⟨g1.trans e1, by omega,
            agreeOutside_trans idx im i1 buf bufm buf1 e2 g2 e3 g3,
            fun hb => g4 (e4 hb)⟩
        | noMatch => cases h
        | err => cases h
        | spin => cases h

/-- Writing the JavaScript `undefined` with a writable node either throws or
(for an empty struct definition) writes nothing. -/
theorem wType_undef_writes_nothing (ta : Node) (hW : Writable ta) :
    ∀ wf buf2 idx out j, wrun wf (.wType ta .undef) buf2 idx = some (out, j) →
      out = buf2 ∧ j = idx := by
  intro wf buf2 idx out j h
  cases wf with
  | zero => cases h
  | succ w =>
    cases hW with
    | scalarW b le hle hnf =>
      simp only [wrun] at h
      split at h
      · cases h
      · simp only [scalarBytes] at h
        rcases hf : isFloat b with _ | _ <;> simp [hf] at h
    | cstrW =>
      simp only [wrun] at h
      cases h
    | arrW ta2 l hWt hl =>
      simp only [wrun] at h
      cases h
    | strctW fs hnd hf =>
      cases fs with
      | nil =>
        cases w with
        | zero => cases h
        | succ w2 =>
          simp only [wrun] at h
          have h4 : (some (buf2, idx) : Option (List Nat × Nat)) = some (out, j) := h
          simp only [Option.some.injEq, Prod.mk.injEq] at h4
          exact ⟨h4.1.symm, h4.2.symm⟩
      | cons p rest =>
        cases w with
        | zero => cases h
        | succ w2 =>
          obtain ⟨m, t⟩ := p
          simp only [wrun] at h
          cases h

/-- Writing back the element values of a typed-array read reproduces, element
slot by element slot, exactly the raw region bytes the read consumed. -/
theorem wElems_typed_roundtrip (plat : Bool) (b : BaseType) (le : Bool)
    (hle : le = false ∨ (b ≠ .u8 ∧ b ≠ .i8)) (hnf : isFloat b = false) :
    ∀ count region idx wf buf2 out i2,
      region.length = count * byteWidth b → (∀ x ∈ region, x < 256) →
      wrun wf (.wElems (.scalar b le 0 none) (typedValues plat le b count region)) buf2 idx =
        some (out, i2) →
      i2 = idx + count * byteWidth b ∧ out.length = buf2.length ∧
        agreeOutside idx (idx + count * byteWidth b) out buf2 ∧
        (∀ j, j < count * byteWidth b → out[idx + j]? = region[j]?) := by
  have hguard : (le && (b == BaseType.u8 || b == BaseType.i8)) = false := by
    rcases hle with rfl | ⟨h1, h2⟩
    · rfl
    · cases b <;> cases le <;> simp_all
  have hw1 : 1 ≤ byteWidth b := by cases b <;> simp [byteWidth]
  intro count
  induction count with
  | zero =>
    intro region idx wf buf2 out i2 hlen hmem h
    have hvs : typedValues plat le b 0 region = [] := by
      simp [typedValues, chunksN]
    rw [hvs] at h
    cases wf with
    | zero => cases h
    | succ w =>
      have h4 : (some (buf2, idx) : Option (List Nat × Nat)) = some (out, i2) := h
      simp only [Option.some.injEq, Prod.mk.injEq] at h4
      obtain ⟨e1, e2⟩ := h4
      subst e1; subst e2
      exact ⟨by omega, rfl, fun j hj => rfl, fun j hj => by omega⟩
  | succ c ih =>
    intro region idx wf buf2 out i2 hlen hmem h
    set sz := byteWidth b with hszdef
    have hsle : sz ≤ region.length := by
      rw [hlen]
      calc sz = 1 * sz := (Nat.one_mul sz).symm
        _ ≤ (c + 1) * sz := Nat.mul_le_mul_right _ (by omega)
    have htklen : (region.take sz).length = sz := by
      rw [List.length_take]
      omega
    have hdrlen : (region.drop sz).length = c * sz := by
      rw [List.length_drop, hlen]
      calc (c + 1) * sz - sz = c * sz + 1 * sz - sz := by ring_nf
      _ = c * sz := by omega
    have hdist : (c + 1) * sz = c * sz + sz := by ring
    rw [typedValues_cons plat le b c region hlen] at h
    cases wf with
    | zero => cases h
    | succ w =>
      simp only [wrun] at h
      rw [← hszdef] at h
      rcases hw : wrun w (.wType (.scalar b le 0 none)
          (scalarValue b le (region.take sz))) buf2 idx with _ | pr
      · rw [hw] at h
        cases h
      · obtain ⟨o1, j1⟩ := pr
        rw [hw] at h
        cases w with
        | zero => cases hw
        | succ w2 =>
          have hsb : scalarBytes b le (scalarValue b le (region.take sz)) =
              some (region.take sz) :=
            scalarBytes_scalarValue b le _ hnf htklen
              (fun x hx => hmem x (List.take_subset _ _ hx))
          simp only [wrun, hguard, Bool.false_eq_true, if_false, hsb] at hw
          split at hw
          · next hbound =>
            simp only [Option.some.injEq, Prod.mk.injEq] at hw
            obtain ⟨e1, e2⟩ := hw
            rw [htklen] at e2
            obtain ⟨g1, g2, g3, g4⟩ := ih (region.drop sz) j1 (w2 + 1) o1 out i2
              hdrlen (fun x hx => hmem x (List.drop_subset _ _ hx)) h
            have hblen : idx + sz ≤ buf2.length := by rw [← htklen]; exact hbound
            have ho1len : o1.length = buf2.length := by
              rw [← e1]
              exact setBytes_length _ _ _ (by rw [htklen]; exact hblen)
            refine ⟨by omega, by omega, ?_, ?_⟩
            · intro j hj
              have hout : out[j]? = o1[j]? := g3 j (by omega)
              rw [hout, ← e1]
              apply setBytes_getElem_outside _ _ _ _ (by rw [htklen]; exact hblen)
              rw [htklen]
              omega
            · intro j hj
              by_cases hjs : j < sz
              · have hout : out[idx + j]? = o1[idx + j]? := g3 (idx + j) (by omega)
                rw [hout, ← e1]
                rw [setBytes_getElem_inside _ _ _ _ (by rw [htklen]; exact hblen)
                  (by omega) (by rw [htklen]; omega)]
                have : idx + j - idx = j := by omega
                rw [this, List.getElem?_take_of_lt hjs]
              · have hrw : idx + j = j1 + (j - sz) := by omega
                rw [hrw]
                have := g4 (j - sz) (by omega)
                rw [this, List.getElem?_drop]
                congr 1
                omega
          · cases hw

/-- `typedBase` succeeds only on a bare scalar tag. -/
theorem typedBase_eq_some (ta : Node) (b : BaseType) (le : Bool)
    (h : typedBase ta = some (b, le)) : ta = .scalar b le 0 none := by
  cases ta with
  | scalar b2 le2 p r =>
    cases p with
    | zero =>
      cases r with
      | none =>
        simp only [typedBase, Option.some.injEq, Prod.mk.injEq] at h
        rw [h.1, h.2]
      | some q => simp [typedBase] at h
    | succ p1 => simp [typedBase] at h
  | fstring p r => simp [typedBase] at h
  | cstr p r => simp [typedBase] at h
  | arr e l => simp [typedBase] at h
  | branch alts => simp [typedBase] at h
  | strct fs => simp [typedBase] at h

/-- The non-`'*'` array body of `readType`, as one equation. -/
theorem run_arr_nonstar (plat : Bool) (f : Nat) (ta : Node) (l : LenSpec)
    (acc : List (String × Value)) (buf : List Nat) (idx : Nat) (hl : l ≠ .star) :
    run plat (f + 1) (.rType (.arr ta l)) acc buf idx =
      (match typedBase ta with
       | some (b, le) =>
         match typedCount buf idx (byteWidth b) (zeroCopyAt b idx)
             (resolveLength acc buf idx l) with
         | none => (.err, buf, idx)
         | some count =>
           (.ok (.varr (typedValues plat le b count
              ((buf.drop idx).take (count * byteWidth b)))),
            if (zeroCopyAt b idx && (le != plat)) = true
            then setBytes buf idx (flipChunks (byteWidth b) count
              ((buf.drop idx).take (count * byteWidth b)))
            else buf,
            idx + count * byteWidth b)
       | none =>
         match arrayCount (resolveLength acc buf idx l) with
         | .thrown => (.err, buf, idx)
         | .undefArr => (.ok (.varr [.undef]), buf, idx)
         | .count n => run plat f (.rElems ta n []) acc buf idx) := by
  cases l with
  | star => exact absurd rfl hl
  | lit n => rfl
  | expr segs => rfl
  | fld name => rfl

set_option maxHeartbeats 1600000 in
/-- The round-trip induction: on the writable fragment, whenever decode
succeeds and a subsequent encode of the decoded value (at the same offset,
into any buffer) completes, the encode ends at the read's final offset,
reproduces on the consumed window exactly the bytes the read consumed, and
leaves every other byte of the target buffer unchanged. -/
theorem writable_roundtrip_aux : ∀ fuel plat,
    (∀ t acc buf idx v buf1 i1, Writable t → ByteBuf buf →
      run plat fuel (.rType t) acc buf idx = (.ok v, buf1, i1) →
      ∀ wf buf2 out i2, wrun wf (.wType t v) buf2 idx = some (out, i2) →
        i2 = i1 ∧ WScope idx i1 buf buf2 out) ∧
    (∀ ta k accv acc buf idx w0 buf1 i1, Writable ta → ByteBuf buf →
      run plat fuel (.rElems ta k accv) acc buf idx = (.ok w0, buf1, i1) →
      ∃ tl, w0 = .varr (accv.reverse ++ tl) ∧
      ∀ wf buf2 out i2, wrun wf (.wElems ta tl) buf2 idx = some (out, i2) →
        i2 = i1 ∧ WScope idx i1 buf buf2 out) ∧
    (∀ fs acc buf idx w0 buf1 i1, (∀ p ∈ fs, Writable p.2) →
      (acc.map Prod.fst ++ fs.map Prod.fst).Nodup → ByteBuf buf →
      run plat fuel (.rFields fs) acc buf idx = (.ok w0, buf1, i1) →
      ∃ tl, w0 = .obj (acc.reverse ++ tl) ∧ tl.map Prod.fst = fs.map Prod.fst ∧
      ∀ wf buf2 out i2, wrun wf (.wFields fs w0) buf2 idx = some (out, i2) →
        i2 = i1 ∧ WScope idx i1 buf buf2 out) := by
  intro fuel
  induction fuel with
  | zero =>
    intro plat
    refine ⟨?_, ?_, ?_⟩
    · intro t acc buf idx v buf1 i1 _ _ h
      simp [run] at h
    · intro ta k accv acc buf idx w0 buf1 i1 _ _ h
      simp [run] at h
    · intro fs acc buf idx w0 buf1 i1 _ _ _ h
      simp [run] at h
  | succ f ih =>
    intro plat
    obtain ⟨ihT, ihE, ihF⟩ := ih plat
    refine ⟨?_, ?_, ?_⟩
    · intro t acc buf idx v buf1 i1 hW hB h
      cases hW with
      | scalarW b le hle hnf =>
        have hguard : (le && (b == BaseType.u8 || b == BaseType.i8)) = false := by
          rcases hle with rfl | ⟨h1, h2⟩
          · rfl
          · cases b <;> cases le <;>
              first
              | rfl
              | exact absurd rfl h1
              | exact absurd rfl h2
        simp only [run, readScalar] at h
        rcases hg : getBytes buf idx (byteWidth b) with _ | bs <;> rw [hg] at h
        · cases h
        · have h4 : ((Res.ok (scalarValue b le bs), buf, idx + Nat.max (byteWidth b) 0) :
              Res × List Nat × Nat) = (.ok v, buf1, i1) := h
          simp only [Prod.mk.injEq, Res.ok.injEq] at h4
          obtain ⟨hv, h2, h3⟩ := h4
          subst h2; subst h3
          have hmax : Nat.max (byteWidth b) 0 = byteWidth b :=
            Nat.max_eq_left (Nat.zero_le _)
          obtain ⟨hlen, hbound, hgj⟩ := getBytes_spec buf idx (byteWidth b) bs hg
          have hmem : ∀ x ∈ bs, x < 256 := fun x hx => hB x (getBytes_mem _ _ _ _ hg x hx)
          have hsb : scalarBytes b le (scalarValue b le bs) = some bs :=
            scalarBytes_scalarValue b le bs hnf hlen hmem
          intro wf buf2 out i2 hwr
          cases wf with
          | zero => cases hwr
          | succ w =>
            have hwr2 : (if (le && (b == BaseType.u8 || b == BaseType.i8)) = true then none
                else match scalarBytes b le v with
                  | none => none
                  | some bs2 =>
                    if idx + bs2.length ≤ buf2.length
                    then some (setBytes buf2 idx bs2, idx + bs2.length)
                    else none) = some (out, i2) := hwr
            rw [← hv, hsb, if_neg (by rw [hguard]; exact Bool.false_ne_true)] at hwr2
            have hwr3 : (if idx + bs.length ≤ buf2.length
                then some (setBytes buf2 idx bs, idx + bs.length)
                else none) = some (out, i2) := hwr2
            split at hwr3
            · next hb2 =>
              simp only [Option.some.injEq, Prod.mk.injEq] at hwr3
              obtain ⟨e1, e2⟩ := hwr3
              rw [hlen] at e2
              refine ⟨by rw [← e2]; omega, ?_, ?_, ?_⟩
              · rw [← e1]
                exact setBytes_length _ _ _ hb2
              · intro j hj
                rw [← e1]
                apply setBytes_getElem_outside _ _ _ _ hb2
                rw [hlen]
                omega
              · intro j hj1 hj2
                rw [← e1, setBytes_getElem_inside _ _ _ _ hb2 hj1
                  (by rw [hlen]; omega)]
                have := hgj (j - idx) (by omega)
                rw [this]
                congr 1
                omega
            · cases hwr3
      | cstrW =>
        simp only [run] at h
        rcases hs : cscan buf idx (buf.length + 1 - idx) with _ | p <;> rw [hs] at h
        · cases h
        · obtain ⟨cs, i⟩ := p
          have h4 : ((Res.ok (Value.str cs), buf, idx + Nat.max i 0) :
              Res × List Nat × Nat) = (.ok v, buf1, i1) := h
          simp only [Prod.mk.injEq, Res.ok.injEq] at h4
          obtain ⟨hv, h2, h3⟩ := h4
          subst h2; subst h3
          have hmaxi : Nat.max i 0 = i := Nat.max_eq_left (Nat.zero_le i)
          obtain ⟨hi, hbound, hreg, hterm, hmem0⟩ := cscan_spec buf _ idx cs i hs
          have hmem : ∀ c ∈ cs, c < 256 := fun c hc => hB c (hmem0 c hc)
          have hmap : cs.map (· % 256) = cs := by
            have hcg : ∀ c ∈ cs, c % 256 = c := fun c hc => Nat.mod_eq_of_lt (hmem c hc)
            calc cs.map (· % 256) = cs.map id := List.map_congr_left hcg
              _ = cs := List.map_id cs
          intro wf buf2 out i2 hwr
          cases wf with
          | zero => cases hwr
          | succ w =>
            rw [← hv] at hwr
            have hwr2 : (if idx + (cs.map (· % 256) ++ [0]).length ≤ buf2.length
                then some (setBytes buf2 idx (cs.map (· % 256) ++ [0]),
                  idx + (cs.map (· % 256) ++ [0]).length)
                else none) = some (out, i2) := hwr
            rw [hmap] at hwr2
            have hbslen : (cs ++ [0]).length = i := by
              simp only [List.length_append, List.length_cons, List.length_nil]
              omega
            rw [hbslen] at hwr2
            split at hwr2
            · next hb2 =>
              simp only [Option.some.injEq, Prod.mk.injEq] at hwr2
              obtain ⟨e1, e2⟩ := hwr2
              refine ⟨by omega, ?_, ?_, ?_⟩
              · rw [← e1]
                apply setBytes_length
                rw [hbslen]
                exact hb2
              · intro j hj
                rw [← e1]
                apply setBytes_getElem_outside _ _ _ _ (by rw [hbslen]; exact hb2)
                rw [hbslen]
                omega
              · intro j hj1 hj2
                rw [← e1, setBytes_getElem_inside _ _ _ _ (by rw [hbslen]; exact hb2) hj1
                  (by rw [hbslen]; omega)]
                by_cases hjc : j - idx < cs.length
                · rw [List.getElem?_append_left hjc]
                  have := hreg (j - idx) hjc
                  rw [← this]
                  congr 1
                  omega
                · have hje : j - idx = cs.length := by omega
                  have hjeq : j = idx + cs.length := by omega
                  rw [hje, List.getElem?_append_right (le_refl _), Nat.sub_self,
                    hjeq, hterm]
                  rfl
            · cases hwr2
      | arrW ta l hWt hl =>
        rw [run_arr_nonstar plat f ta l acc buf idx hl] at h
        rcases ht : typedBase ta with _ | p
        · rw [ht] at h
          dsimp only at h
          rcases ha : arrayCount (resolveLength acc buf idx l) with _ | _ | k <;>
            rw [ha] at h
          · cases h
          · have h4 : ((Res.ok (Value.varr [Value.undef]), buf, idx) :
                Res × List Nat × Nat) = (.ok v, buf1, i1) := h
            simp only [Prod.mk.injEq, Res.ok.injEq] at h4
            obtain ⟨hv, h2, h3⟩ := h4
            subst h2; subst h3
            intro wf buf2 out i2 hwr
            cases wf with
            | zero => cases hwr
            | succ w =>
              rw [← hv] at hwr
              have hwr2 : wrun w (.wElems ta [.undef]) buf2 idx = some (out, i2) := hwr
              cases w with
              | zero => cases hwr2
              | succ w2 =>
                have hwr3 : (match wrun w2 (.wType ta .undef) buf2 idx with
                    | some (buf3, i3) => wrun w2 (.wElems ta []) buf3 i3
                    | none => none) = some (out, i2) := hwr2
                rcases hu : wrun w2 (.wType ta .undef) buf2 idx with _ | pr <;> rw [hu] at hwr3
                · cases hwr3
                · obtain ⟨o1, j1⟩ := pr
                  obtain ⟨he1, he2⟩ := wType_undef_writes_nothing ta hWt w2 buf2 idx o1 j1 hu
                  cases w2 with
                  | zero => cases hwr3
                  | succ w3 =>
                    have h5 : (some (o1, j1) : Option (List Nat × Nat)) =
                        some (out, i2) := hwr3
                    rw [he1, he2] at h5
                    simp only [Option.some.injEq, Prod.mk.injEq] at h5
                    obtain ⟨e1, e2⟩ := h5
                    subst e1; subst e2
                    exact ⟨rfl, rfl, fun j hj => rfl, fun j hj1 hj2 => by omega⟩
          · obtain ⟨tl, htl, hwrite⟩ := ihE ta k [] acc buf idx v buf1 i1 hWt hB h
            simp only [List.reverse_nil, List.nil_append] at htl
            intro wf buf2 out i2 hwr
            cases wf with
            | zero => cases hwr
            | succ w =>
              rw [htl] at hwr
              have hwr2 : wrun w (.wElems ta tl) buf2 idx = some (out, i2) := hwr
              exact hwrite w buf2 out i2 hwr2
        · obtain ⟨b, le⟩ := p
          have hta : ta = .scalar b le 0 none := typedBase_eq_some ta b le ht
          have hle : le = false ∨ (b ≠ .u8 ∧ b ≠ .i8) := by
            rw [hta] at hWt
            cases hWt with
            | scalarW _ _ hle _ => exact hle
          have hnf : isFloat b = false := by
            rw [hta] at hWt
            cases hWt with
            | scalarW _ _ _ hnf => exact hnf
          rw [ht] at h
          dsimp only at h
          rcases hc : typedCount buf idx (byteWidth b) (zeroCopyAt b idx)
            (resolveLength acc buf idx l) with _ | count <;> rw [hc] at h
          · cases h
          · have hbound := typedCount_le _ _ _ _ _ _ hc
            have hreg : ((buf.drop idx).take (count * byteWidth b)).length =
                count * byteWidth b := by
              rw [List.length_take, List.length_drop]
              omega
            have hregmem : ∀ x ∈ (buf.drop idx).take (count * byteWidth b), x < 256 :=
              fun x hx => hB x (List.drop_subset _ _ (List.take_subset _ _ hx))
            have h4 : ((Res.ok (Value.varr (typedValues plat le b count
                  ((buf.drop idx).take (count * byteWidth b)))),
                if (zeroCopyAt b idx && (le != plat)) = true then
                  setBytes buf idx (flipChunks (byteWidth b) count
                    ((buf.drop idx).take (count * byteWidth b)))
                else buf,
                idx + count * byteWidth b) : Res × List Nat × Nat) = (.ok v, buf1, i1) := h
            simp only [Prod.mk.injEq, Res.ok.injEq] at h4
            obtain ⟨hv, h2, h3⟩ := h4
            subst h3
            intro wf buf2 out i2 hwr
            cases wf with
            | zero => cases hwr
            | succ w =>
              rw [← hv, hta] at hwr
              have hwr2 : wrun w (.wElems (.scalar b le 0 none)
                  (typedValues plat le b count
                    ((buf.drop idx).take (count * byteWidth b)))) buf2 idx =
                  some (out, i2) := hwr
              obtain ⟨g1, g2, g3, g4⟩ :=
                wElems_typed_roundtrip plat b le hle hnf count
                  ((buf.drop idx).take (count * byteWidth b)) idx w buf2 out i2
                  hreg hregmem hwr2
              refine ⟨g1, g2, g3, ?_⟩
              intro j hj1 hj2
              have hg4 := g4 (j - idx) (by omega)
              have hrw : idx + (j - idx) = j := by omega
              rw [hrw] at hg4
              rw [hg4, List.getElem?_take_of_lt (by omega), List.getElem?_drop, hrw]
      | strctW fs hnd hf =>
        simp only [run] at h
        obtain ⟨tl, htl, hnames, hwrite⟩ := ihF fs [] buf idx v buf1 i1 hf
          (by simpa using hnd) hB h
        simp only [List.reverse_nil, List.nil_append] at htl
        intro wf buf2 out i2 hwr
        cases wf with
        | zero => cases hwr
        | succ w =>
          rw [htl] at hwr
          have hwr2 : wrun w (.wFields fs (.obj tl)) buf2 idx = some (out, i2) := hwr
          rw [← htl] at hwr2
          exact hwrite w buf2 out i2 hwr2
    · intro ta k accv acc buf idx w0 buf1 i1 hW hB h
      cases k with
      | zero =>
        simp only [run] at h
        have h4 : ((Res.ok (Value.varr accv.reverse), buf, idx) :
            Res × List Nat × Nat) = (.ok w0, buf1, i1) := h
        simp only [Prod.mk.injEq, Res.ok.injEq] at h4
        obtain ⟨hv, h2, h3⟩ := h4
        subst h2; subst h3
        refine ⟨[], by rw [← hv, List.append_nil], ?_⟩
        intro wf buf2 out i2 hwr
        cases wf with
        | zero => cases hwr
        | succ w =>
          have h5 : (some (buf2, idx) : Option (List Nat × Nat)) = some (out, i2) := hwr
          simp only [Option.some.injEq, Prod.mk.injEq] at h5
          obtain ⟨e1, e2⟩ := h5
          subst e1; subst e2
          exact ⟨rfl, rfl, fun j hj => rfl, fun j hj1 hj2 => by omega⟩
      | succ k1 =>
        simp only [run] at h
        rcases hrun : run plat f (.rType ta) acc buf idx with ⟨res, bufm, im⟩
        rw [hrun] at h
        cases res with
        | ok w =>
          obtain ⟨m1, m2, m3, m4⟩ :=
            (writable_read_extent f plat).1 ta acc buf idx w bufm im hW hrun
          obtain ⟨tl1, htl1, hwr1⟩ := ihE ta k1 (w :: accv) acc bufm im w0 buf1 i1
            hW (m4 hB) h
          rw [List.reverse_cons, List.append_assoc, List.singleton_append] at htl1
          refine ⟨w :: tl1, htl1, ?_⟩
          intro wf buf2 out i2 hwr
          cases wf with
          | zero => cases hwr
          | succ wv =>
            have hwr0 : (match wrun wv (.wType ta w) buf2 idx with
                | some (buf3, i3) => wrun wv (.wElems ta tl1) buf3 i3
                | none => none) = some (out, i2) := hwr
            rcases hw1 : wrun wv (.wType ta w) buf2 idx with _ | pr <;> rw [hw1] at hwr0
            · cases hwr0
            · obtain ⟨o1, j1⟩ := pr
              obtain ⟨e1, hsc1⟩ := ihT ta acc buf idx w bufm im hW hB hrun wv buf2 o1 j1 hw1
              have hwr2 : wrun wv (.wElems ta tl1) o1 j1 = some (out, i2) := hwr0
              rw [e1] at hwr2
              obtain ⟨e2, hsc2⟩ := hwr1 wv o1 out i2 hwr2
              obtain ⟨-, g2, -, -⟩ :=
                (writable_read_extent f plat).2.1 ta k1 (w :: accv) acc bufm im w0 buf1 i1
                  hW h
              refine ⟨e2, WScope.comp idx im i1 buf bufm buf2 o1 out m2 g2 hsc1 hsc2 ?_⟩
              intro j hj
              exact m3 j (Or.inr hj)
        | noMatch =>
          have := (writable_no_noMatch f plat).1 ta acc buf idx hW
          rw [hrun] at this
          simp at this
        | err => cases h
        | spin => cases h
    · intro fs acc buf idx w0 buf1 i1 hf hnd hB h
      cases fs with
      | nil =>
        simp only [run] at h
        have h4 : ((Res.ok (Value.obj acc.reverse), buf, idx) :
            Res × List Nat × Nat) = (.ok w0, buf1, i1) := h
        simp only [Prod.mk.injEq, Res.ok.injEq] at h4
        obtain ⟨hv, h2, h3⟩ := h4
        subst h2; subst h3
        refine ⟨[], by rw [← hv, List.append_nil], rfl, ?_⟩
        intro wf buf2 out i2 hwr
        cases wf with
        | zero => cases hwr
        | succ w =>
          have h5 : (some (buf2, idx) : Option (List Nat × Nat)) = some (out, i2) := hwr
          simp only [Option.some.injEq, Prod.mk.injEq] at h5
          obtain ⟨e1, e2⟩ := h5
          subst e1; subst e2
          exact ⟨rfl, rfl, fun j hj => rfl, fun j hj1 hj2 => by omega⟩
      | cons p rest =>
        obtain ⟨n, t⟩ := p
        simp only [run] at h
        rcases hrun : run plat f (.rType t) acc buf idx with ⟨res, bufm, im⟩
        rw [hrun] at h
        cases res with
        | ok w =>
          have hWt : Writable t := hf (n, t) (List.mem_cons_self _ _)
          obtain ⟨m1, m2, m3, m4⟩ :=
            (writable_read_extent f plat).1 t acc buf idx w bufm im hWt hrun
          have hnd2 : (((n, w) :: acc).map Prod.fst ++ rest.map Prod.fst).Nodup := by
            simp only [List.map_cons] at hnd ⊢
            have hperm : List.Perm (n :: (acc.map Prod.fst ++ rest.map Prod.fst))
                (acc.map Prod.fst ++ n :: rest.map Prod.fst) := List.perm_middle.symm
            simp only [List.cons_append]
            exact hperm.nodup_iff.mpr hnd
          obtain ⟨tl1, htl1, hnames1, hwr1⟩ := ihF rest ((n, w) :: acc) bufm im w0 buf1 i1
            (fun q hq => hf q (List.mem_cons_of_mem _ hq)) hnd2 (m4 hB) h
          rw [List.reverse_cons, List.append_assoc, List.singleton_append] at htl1
          have hnin : n ∉ (acc.map Prod.fst) := by
            rw [List.nodup_append] at hnd
            intro hmem
            exact hnd.2.2 hmem (by simp)
          refine ⟨(n, w) :: tl1, htl1, by simp [hnames1], ?_⟩
          intro wf buf2 out i2 hwr
          cases wf with
          | zero => cases hwr
          | succ wv =>
            rw [htl1] at hwr
            have hlook : (acc.reverse ++ ((n, w) :: tl1)).lookup n = some w := by
              rw [lookup_append_not_mem]
              · simp [List.lookup]
              · rw [List.map_reverse]
                intro hmem
                exact hnin (List.mem_reverse.mp hmem)
            have hwr0 : (match (acc.reverse ++ ((n, w) :: tl1)).lookup n with
                | some fv =>
                  (match wrun wv (.wType t fv) buf2 idx with
                   | some (buf3, i3) =>
                     wrun wv (.wFields rest (.obj (acc.reverse ++ ((n, w) :: tl1)))) buf3 i3
                   | none => none)
                | none => none) = some (out, i2) := hwr
            rw [hlook] at hwr0
            have hwr0b : (match wrun wv (.wType t w) buf2 idx with
                | some (buf3, i3) =>
                  wrun wv (.wFields rest (.obj (acc.reverse ++ ((n, w) :: tl1)))) buf3 i3
                | none => none) = some (out, i2) := hwr0
            rcases hw1 : wrun wv (.wType t w) buf2 idx with _ | pr <;> rw [hw1] at hwr0b
            · cases hwr0b
            · obtain ⟨o1, j1⟩ := pr
              obtain ⟨e1, hsc1⟩ := ihT t acc buf idx w bufm im hWt hB hrun wv buf2 o1 j1 hw1
              have hwr2 : wrun wv (.wFields rest
                  (.obj (acc.reverse ++ ((n, w) :: tl1)))) o1 j1 = some (out, i2) := hwr0b
              rw [e1, ← htl1] at hwr2
              obtain ⟨e2, hsc2⟩ := hwr1 wv o1 out i2 hwr2
              obtain ⟨-, g2, -, -⟩ :=
                (writable_read_extent f plat).2.2 rest ((n, w) :: acc) bufm im w0 buf1 i1
                  (fun q hq => hf q (List.mem_cons_of_mem _ hq)) h
              refine ⟨e2, WScope.comp idx im i1 buf bufm buf2 o1 out m2 g2 hsc1 hsc2 ?_⟩
              intro j hj
              exact m3 j (Or.inr hj)
        | noMatch =>
          have := (writable_no_noMatch f plat).1 t acc buf idx
            (hf (n, t) (List.mem_cons_self _ _))
          rw [hrun] at this
          simp at this
        | err => cases h
        | spin => cases h

/-- Decoding a `float32` field whose raw bytes form a NaN pattern (here the
signalling NaN `0x7F800001`) succeeds, but writing the decoded record back
stores the canonical quiet NaN `0x7FC00000`: `setFloat32` quietens through
the float↔double conversions and the standard leaves the stored NaN encoding
implementation-chosen, so byte-exact round-trip fails on the float tags and
they are excluded from `Writable`. -/
theorem float_nan_write_not_byte_exact :
    readStruct true 20 [("x", .scalar .f32 false 0 none)]
      [0x7F, 0x80, 0x00, 0x01] 0 =
      (.ok (.obj [("x", .fnum 4 0x7F800001)]), [0x7F, 0x80, 0x00, 0x01], 4) ∧
    writeStruct 20 [("x", .scalar .f32 false 0 none)]
      (.obj [("x", .fnum 4 0x7F800001)]) [0x7F, 0x80, 0x00, 0x01] 0 =
      some ([0x7F, 0xC0, 0x00, 0x00], 4) := ⟨rfl, rfl⟩

/-- JavaScript division in a length expression: with `n = 0` and `m = 0` the
length `n/m` is `0/0 = NaN`, which the typed-array path `ToIndex`-converts to
0 — a silent empty decode; with `n = 1` the length is `1/0 = Infinity`, which
throws a `RangeError`. -/
theorem zero_over_zero_length_is_silent_empty :
    readStruct true 20
      [("n", .scalar .u8 false 0 none), ("m", .scalar .u8 false 0 none),
       ("data", .arr (.scalar .u8 false 0 none)
         (.expr [(.add, .fld "n"), (.div, .fld "m")]))]
      [0,0,5] 0 =
      (.ok (.obj [("n", .num 0), ("m", .num 0), ("data", .varr [])]), [0,0,5], 2) ∧
    readStruct true 20
      [("n", .scalar .u8 false 0 none), ("m", .scalar .u8 false 0 none),
       ("data", .arr (.scalar .u8 false 0 none)
         (.expr [(.add, .fld "n"), (.div, .fld "m")]))]
      [1,0,5] 0 = (.err, [1,0,5], 2) := ⟨rfl, rfl⟩

/-- C1 amended: for a branch-free schema within the fragment `writeType` can
write back byte-exactly — bare scalar tags other than `uint8le`/`int8le` and
other than the float tags `float32`/`float64` (whose NaN write-back encoding
is implementation-chosen), bare `cstring`, arrays with any non-`'*'` length
form, and nested structs with distinct field names; no `paddedTo`, no `=ref`,
no `'string'` tags — whenever `readStruct` at offset 0 succeeds on a byte
buffer and `writeStruct` of the decoded record at offset 0 completes on a
target buffer, the write ends exactly at the read's final offset, reproduces
the consumed bytes of the original buffer exactly, and leaves the rest of the
target untouched. -/
theorem readStruct_writeStruct_roundtrip :
    ∀ plat fuel fs buf rec buf1 endR wf buf2 out endW,
      (∀ p ∈ fs, Writable p.2) → (fs.map Prod.fst).Nodup → ByteBuf buf →
      readStruct plat fuel fs buf 0 = (.ok rec, buf1, endR) →
      writeStruct wf fs rec buf2 0 = some (out, endW) →
      endW = endR ∧ out.length = buf2.length ∧
        (∀ j, j < endR → out[j]? = buf[j]?) ∧
        (∀ j, endR ≤ j → out[j]? = buf2[j]?) := by
  intro plat fuel fs buf rec buf1 endR wf buf2 out endW hW hnd hB hr hw
  simp only [readStruct] at hr
  simp only [writeStruct] at hw
  obtain ⟨tl, htl, hnames, hwrite⟩ := (writable_roundtrip_aux fuel plat).2.2 fs [] buf 0
    rec buf1 endR hW (by simpa using hnd) hB hr
  obtain ⟨e, hl, ho, hon⟩ := hwrite wf buf2 out endW hw
  exact ⟨e, hl, fun j hj => hon j (Nat.zero_le j) hj, fun j hj => ho j (Or.inr hj)⟩

/-- C1 witness: `{a:'uint16', s:'cstring'}` over `[1,2,72,0]` decodes to
`{a: 258, s: "H"}`; writing it into a 5-byte buffer of `9`s reproduces the
four consumed bytes and leaves the fifth alone. -/
theorem readStruct_writeStruct_roundtrip_witness :
    (4 : Nat) = 4 ∧
      ([1,2,72,0,9] : List Nat).length = ([9,9,9,9,9] : List Nat).length ∧
      (∀ j, j < 4 → ([1,2,72,0,9] : List Nat)[j]? = ([1,2,72,0] : List Nat)[j]?) ∧
      (∀ j, 4 ≤ j → ([1,2,72,0,9] : List Nat)[j]? = ([9,9,9,9,9] : List Nat)[j]?) :=
  readStruct_writeStruct_roundtrip true 20
    [("a", .scalar .u16 false 0 none), ("s", .cstr 0 none)]
    [1,2,72,0] (.obj [("a", .num 258), ("s", .str [72])]) [1,2,72,0] 4
    20 [9,9,9,9,9] [1,2,72,0,9] 4
    (fun p hp => by
      rcases List.mem_cons.mp hp with rfl | hp2
      · exact Writable.scalarW .u16 false (Or.inl rfl) rfl
      · rcases List.mem_cons.mp hp2 with rfl | hp3
        · exact Writable.cstrW
        · exact absurd hp3 (List.not_mem_nil _))
    (by decide) (by intro b hb; fin_cases hb <;> decide) rfl rfl
